import Mathlib

/-!
# Verification of the Facebook-Mobility-Viz aggregation/normalization engine

Shallow embedding of the pure data-transformation core of the dashboard
(`calculateCountryAggregates`, `calculateRegionAsAggregate`,
`getNormalizedSeries`, `calculateStats`, the `comparisonChartData`
date-keyed merge, and the `sortedMatrix` sorter), together with proofs of
the specification's testable properties.

Modelling conventions:
* JS numbers are embedded as `ℚ` (the inputs are finite decimals parsed
  from a TSV file; the spec's arithmetic properties are stated exactly
  over the rationals).
* A date string `ds` is embedded as its timestamp (`Nat`): the code both
  groups by the `ds` string and orders by `new Date(ds).getTime()`, and on
  the canonical `YYYY-MM-DD` strings the engine assumes, string equality
  and timestamp equality coincide and the timestamp order is the date
  order.
* A JS `Map` is embedded as an insertion-ordered association list:
  `Map.prototype.set` updates an existing key in place (keeping its
  position) or appends a fresh entry; iteration (`entries`/`values`) is in
  insertion order.
* `Array.prototype.sort` with a three-way comparator `cmp` is a stable
  sort with respect to the total preorder `le a b ↔ cmp a b ≤ 0`; it is
  embedded as `List.mergeSort` (stable) with that `le`.
* `Number.prototype.toFixed(1)` is embedded by the numeric value of the
  produced string: rounding to one decimal, ties towards `+∞`.
-/

/-- One raw observation (`MovementRecord` in `types.ts`). `ds` is the
date, embedded as its timestamp. -/
structure MovementRecord where
  ds : Nat
  country : String
  polygon_source : String
  polygon_id : String
  polygon_name : String
  all_day_bing_tiles_visited_relative_change : ℚ
  all_day_ratio_single_tile_users : ℚ
  baseline_name : String
  baseline_type : String
  deriving DecidableEq, Repr

/-- Embeds `NormalizedDataPoint` from the dashboard component. -/
structure NormalizedDataPoint where
  ds : Nat
  mobility : ℚ
  stay : ℚ
  baseline_type : String
  deriving DecidableEq, Repr

/-- One row of the per-region matrix (`RegionStats`). During the
aggregation pass `avgMobility`/`avgStay` temporarily hold running sums,
exactly as in the source. -/
structure RegionStats where
  name : String
  avgMobility : ℚ
  avgStay : ℚ
  maxStay : ℚ
  minMobility : ℚ
  dataPoints : Nat
  deriving DecidableEq, Repr

/-- One entry of the aggregated daily trend. -/
structure TrendPoint where
  ds : Nat
  avgMobility : ℚ
  avgStay : ℚ
  deriving DecidableEq, Repr

/-- The `{trend, matrix, totalRegions}` result of the Country Aggregator. -/
structure CountryAggregate where
  trend : List TrendPoint
  matrix : List RegionStats
  totalRegions : Nat
  deriving DecidableEq, Repr

/-- Embeds `ChartDataPoint`: one row of the date-joined comparison table. The
`primary_mobility`/`primary_stay` fields are typed `number | null` in the
source and the remaining optional fields `… | undefined`; both absences
are embedded as `Option`. -/
structure ChartDataPoint where
  ds : Nat
  primary_mobility : Option ℚ
  primary_stay : Option ℚ
  primary_label : Option String
  secondary_mobility : Option ℚ
  secondary_stay : Option ℚ
  secondary_label : Option String
  deriving DecidableEq, Repr

/-- The scalar summary produced by `calculateStats`. `avgMobility` and
`maxStayHome` carry the numeric value of the rendered percentage string. -/
structure Stats where
  avgMobility : ℚ
  maxStayHome : ℚ
  count : Nat
  start : Nat
  «end» : Nat
  deriving DecidableEq, Repr

/-- The per-day accumulator of the trend map
(`{ count, mobSum, staySum }`). -/
structure DateAcc where
  count : Nat
  mobSum : ℚ
  staySum : ℚ
  deriving DecidableEq, Repr

/-- JS `Map.prototype.get` on an insertion-ordered association list. -/
def jsGet {K V : Type} [DecidableEq K] : List (K × V) → K → Option V
  | [], _ => none
  | e :: es, k => if e.1 = k then some e.2 else jsGet es k

/-- JS `Map.prototype.set`: update an existing key in place (keeping its
position) or append a fresh entry. -/
def jsSet {K V : Type} [DecidableEq K] : List (K × V) → K → V → List (K × V)
  | [], k, v => [(k, v)]
  | e :: es, k, v => if e.1 = k then (k, v) :: es else e :: jsSet es k v

/-- The reserved whole-country sentinel. -/
def WHOLE_COUNTRY_OPTION : String := "(Whole Country Average)"

/-- Trend accumulation step of `calculateCountryAggregates` (lines 78-83):
seed `{count: 0, mobSum: 0, staySum: 0}` on first sight of a date, then add
the row's two measurements and bump the count. -/
def trendStep (m : List (Nat × DateAcc)) (r : MovementRecord) : List (Nat × DateAcc) :=
  let dEntry := (jsGet m r.ds).getD { count := 0, mobSum := 0, staySum := 0 }
  jsSet m r.ds
    { count := dEntry.count + 1,
      mobSum := dEntry.mobSum + r.all_day_bing_tiles_visited_relative_change,
      staySum := dEntry.staySum + r.all_day_ratio_single_tile_users }

/-- Region accumulation step of `calculateCountryAggregates`
(lines 85-101): seed the running stats (sums at 0, max seeded at `-1`,
min seeded at `999`), then fold the row in. -/
def regionStep (m : List (String × RegionStats)) (r : MovementRecord) : List (String × RegionStats) :=
  let rEntry := (jsGet m r.polygon_name).getD
    { name := r.polygon_name, avgMobility := 0, avgStay := 0,
      maxStay := -1, minMobility := 999, dataPoints := 0 }
  jsSet m r.polygon_name
    { name := rEntry.name,
      avgMobility := rEntry.avgMobility + r.all_day_bing_tiles_visited_relative_change,
      avgStay := rEntry.avgStay + r.all_day_ratio_single_tile_users,
      maxStay := max rEntry.maxStay r.all_day_ratio_single_tile_users,
      minMobility := min rEntry.minMobility r.all_day_bing_tiles_visited_relative_change,
      dataPoints := rEntry.dataPoints + 1 }

/-- Date comparator of the trend sort (`new Date(a.ds).getTime() -
new Date(b.ds).getTime()` ascending). -/
def trendLe (a b : TrendPoint) : Bool := decide (a.ds ≤ b.ds)

/-- Same date comparator, on raw records. -/
def recordLe (a b : MovementRecord) : Bool := decide (a.ds ≤ b.ds)

/-- Same date comparator, on chart rows. -/
def chartLe (a b : ChartDataPoint) : Bool := decide (a.ds ≤ b.ds)

/-- Embeds `calculateCountryAggregates` (dashboard lines 66-119). The source's
single `forEach` threads the two independent maps; they are embedded as
two folds of the respective step functions over the same filtered rows. -/
def calculateCountryAggregates (data : List MovementRecord) (country : String) :
    Option CountryAggregate :=
  if country = "" then none else
  let raw := data.filter fun d => decide (d.country = country)
  if raw.isEmpty then none else
  let dateMap := raw.foldl trendStep []
  let regionMap := raw.foldl regionStep []
  let trend := (dateMap.map fun e =>
    ({ ds := e.1, avgMobility := e.2.mobSum / (e.2.count : ℚ),
       avgStay := e.2.staySum / (e.2.count : ℚ) } : TrendPoint)).mergeSort trendLe
  let matrix := regionMap.map fun e =>
    { e.2 with
      avgMobility := e.2.avgMobility / (e.2.dataPoints : ℚ),
      avgStay := e.2.avgStay / (e.2.dataPoints : ℚ) }
  some { trend := trend, matrix := matrix, totalRegions := regionMap.length }

/-- Embeds `calculateRegionAsAggregate` (dashboard lines 122-151). The spreads
`Math.min(...mobilityVals)` / `Math.max(...stayVals)` over the non-empty
value lists are folds of `min`/`max` over the list. -/
def calculateRegionAsAggregate : List NormalizedDataPoint → String → Option CountryAggregate
  | [], _ => none
  | d :: ds, regionName =>
    let dataset := d :: ds
    let trend : List TrendPoint :=
      dataset.map fun p => { ds := p.ds, avgMobility := p.mobility, avgStay := p.stay }
    let mobilityVals := dataset.map fun p => p.mobility
    let stayVals := dataset.map fun p => p.stay
    let avgMobility := mobilityVals.foldl (· + ·) 0 / (mobilityVals.length : ℚ)
    let avgStay := stayVals.foldl (· + ·) 0 / (stayVals.length : ℚ)
    let minMobility := (ds.map fun p => p.mobility).foldl min d.mobility
    let maxStay := (ds.map fun p => p.stay).foldl max d.stay
    some { trend := trend,
           matrix := [{ name := regionName, avgMobility := avgMobility, avgStay := avgStay,
                        maxStay := maxStay, minMobility := minMobility,
                        dataPoints := dataset.length }],
           totalRegions := 1 }

/-- Embeds `getNormalizedSeries` (dashboard lines 224-249); the ambient record
collection is passed explicitly. -/
def getNormalizedSeries (data : List MovementRecord) (c r : String) : List NormalizedDataPoint :=
  if c = "" ∨ r = "" then []
  else if r = WHOLE_COUNTRY_OPTION then
    match calculateCountryAggregates data c with
    | none => []
    | some agg =>
      agg.trend.map fun t =>
        { ds := t.ds, mobility := t.avgMobility, stay := t.avgStay, baseline_type := "AVERAGE" }
  else
    ((data.filter fun d => decide (d.country = c ∧ d.polygon_name = r)).mergeSort recordLe).map
      fun d => { ds := d.ds, mobility := d.all_day_bing_tiles_visited_relative_change,
                 stay := d.all_day_ratio_single_tile_users, baseline_type := d.baseline_type }

/-- Numeric value of `x.toFixed(1)`: one decimal, ties towards `+∞`
(ECMA-262 picks the larger candidate integer on a tie). -/
def toFixed1 (x : ℚ) : ℚ := (⌊x * 10 + 1 / 2⌋ : ℚ) / 10

/-- Embeds `calculateStats` (dashboard lines 251-266). -/
def calculateStats : List NormalizedDataPoint → Option Stats
  | [] => none
  | d :: ds =>
    let dataset := d :: ds
    let mobilityChanges := dataset.map fun p => p.mobility
    let avgMobility := mobilityChanges.foldl (· + ·) 0 / (mobilityChanges.length : ℚ)
    let maxStayHome := (ds.map fun p => p.stay).foldl max d.stay
    some { avgMobility := toFixed1 (avgMobility * 100),
           maxStayHome := toFixed1 (maxStayHome * 100),
           count := dataset.length,
           start := d.ds,
           «end» := (dataset.getLastD d).ds }

/-- Primary seeding step of the `comparisonChartData` merge
(lines 275-282). -/
def primaryStep (primaryLabel : String) (m : List (Nat × ChartDataPoint))
    (d : NormalizedDataPoint) : List (Nat × ChartDataPoint) :=
  jsSet m d.ds
    { ds := d.ds, primary_mobility := some d.mobility, primary_stay := some d.stay,
      primary_label := some primaryLabel,
      secondary_mobility := none, secondary_stay := none, secondary_label := none }

/-- Secondary update step of the `comparisonChartData` merge
(lines 285-295): look up the row for the date — creating it with null
primary fields if absent — and set the secondary fields. -/
def secondaryStep (secondaryLabel : String) (m : List (Nat × ChartDataPoint))
    (d : NormalizedDataPoint) : List (Nat × ChartDataPoint) :=
  let existing := (jsGet m d.ds).getD
    { ds := d.ds, primary_mobility := none, primary_stay := none, primary_label := none,
      secondary_mobility := none, secondary_stay := none, secondary_label := none }
  jsSet m d.ds
    { existing with
      secondary_mobility := some d.mobility, secondary_stay := some d.stay,
      secondary_label := some secondaryLabel }

/-- Embeds `comparisonChartData` (dashboard lines 272-299): date-keyed outer
join of the two normalized series, result sorted ascending by date. The
label strings are computed outside the loops in the source and passed in
here. -/
def comparisonChartData (primaryData secondaryData : List NormalizedDataPoint)
    (isCompareMode : Bool) (primaryLabel secondaryLabel : String) : List ChartDataPoint :=
  let dataMap := primaryData.foldl (primaryStep primaryLabel) []
  let dataMap2 :=
    if isCompareMode ∧ 0 < secondaryData.length then
      secondaryData.foldl (secondaryStep secondaryLabel) dataMap
    else dataMap
  (dataMap2.map Prod.snd).mergeSort chartLe

/-- The sortable field keys of `RegionStats` (`keyof RegionStats`). -/
inductive RegionStatsKey
  | name | avgMobility | avgStay | maxStay | minMobility | dataPoints
  deriving DecidableEq, Repr

/-- Sort direction. -/
inductive SortDirection
  | asc | desc
  deriving DecidableEq, Repr

/-- Comparator test `a[sortConfig.key] < b[sortConfig.key]`: JS `<` on the selected field
(lexicographic on the `name` string, numeric otherwise). -/
def keyLt (k : RegionStatsKey) (a b : RegionStats) : Bool :=
  match k with
  | .name => decide (a.name < b.name)
  | .avgMobility => decide (a.avgMobility < b.avgMobility)
  | .avgStay => decide (a.avgStay < b.avgStay)
  | .maxStay => decide (a.maxStay < b.maxStay)
  | .minMobility => decide (a.minMobility < b.minMobility)
  | .dataPoints => decide (a.dataPoints < b.dataPoints)

/-- The `sortedMatrix` comparator (lines 366-370) as the total preorder
`cmp a b ≤ 0`: ascending keeps `a` before `b` unless `b[key] < a[key]`,
descending unless `a[key] < b[key]`. -/
def sortLe (k : RegionStatsKey) (dir : SortDirection) (a b : RegionStats) : Bool :=
  match dir with
  | .asc => !(keyLt k b a)
  | .desc => !(keyLt k a b)

/-- Embeds `sortedMatrix` (dashboard lines 358-373) as a pure function of the
active aggregate's matrix: copy, then stable-sort by the configured key
and direction (a `null` sortConfig leaves the copy untouched). -/
def sortedMatrix (matrix : List RegionStats)
    (sortConfig : Option (RegionStatsKey × SortDirection)) : List RegionStats :=
  match sortConfig with
  | none => matrix
  | some cfg => matrix.mergeSort (sortLe cfg.1 cfg.2)

/-- A store of JS arrays of `RegionStats`, for stating the frame property
of `sortedMatrix`: references `0, …, next - 1` are the allocated arrays. -/
structure ArrayStore where
  arrays : Nat → List RegionStats
  next : Nat

/-- Version of `sortedMatrix` with the source's aliasing made explicit:
`let sortable = [...activeData.matrix]` allocates a fresh array holding a
copy of the matrix's elements, and `sortable.sort(...)` mutates only that
fresh array. Returns the new store and the reference to the result. -/
def sortedMatrixInPlace (s : ArrayStore) (matrixRef : Nat)
    (sortConfig : Option (RegionStatsKey × SortDirection)) : ArrayStore × Nat :=
  let fresh := s.next
  let copied : ArrayStore :=
    { arrays := fun i => if i = fresh then s.arrays matrixRef else s.arrays i,
      next := s.next + 1 }
  let sorted : ArrayStore :=
    { arrays := fun i =>
        if i = fresh then sortedMatrix (copied.arrays fresh) sortConfig else copied.arrays i,
      next := copied.next }
  (sorted, fresh)

/-! ## Generic lemmas about the JS `Map` model -/

section JsMap

variable {K V : Type} [DecidableEq K]

theorem jsSet_ne_nil (m : List (K × V)) (k : K) (v : V) : jsSet m k v ≠ [] := by
  cases m with
  | nil => simp [jsSet]
  | cons e es =>
    simp only [jsSet]
    by_cases h : e.1 = k <;> simp [h]

theorem jsGet_jsSet (m : List (K × V)) (k : K) (v : V) (k' : K) :
    jsGet (jsSet m k v) k' = if k' = k then some v else jsGet m k' := by
  induction m with
  | nil =>
    by_cases h : k' = k
    · simp [jsSet, jsGet, h]
    · simp [jsSet, jsGet, h, Ne.symm h]
  | cons e es ih =>
    by_cases h : e.1 = k
    · by_cases h' : k' = k
      · subst h'
        simp [jsSet, jsGet, h]
      · have he : e.1 ≠ k' := fun hh => h' (hh ▸ h)
        simp [jsSet, jsGet, h, h', Ne.symm h', he]
    · by_cases h' : e.1 = k'
      · have hk : ¬ k' = k := fun hh => h (h'.trans hh)
        simp [jsSet, jsGet, h, h', hk]
      · simp [jsSet, jsGet, h, h', ih]

theorem mem_jsSet {m : List (K × V)} {k : K} {v : V} {e : K × V}
    (h : e ∈ jsSet m k v) : e = (k, v) ∨ e ∈ m := by
  induction m with
  | nil => simpa [jsSet] using h
  | cons f fs ih =>
    by_cases hf : f.1 = k
    · simp only [jsSet, if_pos hf, List.mem_cons] at h
      rcases h with h1 | h1
      · exact Or.inl h1
      · exact Or.inr (List.mem_cons_of_mem _ h1)
    · simp only [jsSet, if_neg hf, List.mem_cons] at h
      rcases h with h1 | h1
      · exact Or.inr (h1 ▸ List.mem_cons_self _ _)
      · rcases ih h1 with h2 | h2
        · exact Or.inl h2
        · exact Or.inr (List.mem_cons_of_mem _ h2)

theorem keys_jsSet_mem (m : List (K × V)) (k : K) (v : V) (k' : K) :
    k' ∈ (jsSet m k v).map Prod.fst ↔ k' = k ∨ k' ∈ m.map Prod.fst := by
  induction m with
  | nil => simp [jsSet]
  | cons e es ih =>
    by_cases h : e.1 = k
    · simp only [jsSet, if_pos h, List.map_cons, List.mem_cons]
      constructor
      · rintro (h1 | h1)
        · exact Or.inl h1
        · exact Or.inr (Or.inr h1)
      · rintro (h1 | h1 | h1)
        · exact Or.inl h1
        · exact Or.inl (h1.trans h)
        · exact Or.inr h1
    · simp only [jsSet, if_neg h, List.map_cons, List.mem_cons, ih]
      tauto

theorem jsGet_eq_none_iff (m : List (K × V)) (k : K) :
    jsGet m k = none ↔ k ∉ m.map Prod.fst := by
  induction m with
  | nil => simp [jsGet]
  | cons e es ih =>
    by_cases h : e.1 = k
    · simp [jsGet, h]
    · simp only [jsGet, if_neg h, List.map_cons, List.mem_cons, ih]
      constructor
      · rintro h1 (h2 | h2)
        · exact h h2.symm
        · exact h1 h2
      · intro h1
        exact fun h2 => h1 (Or.inr h2)

theorem nodup_keys_jsSet {m : List (K × V)} (k : K) (v : V)
    (h : (m.map Prod.fst).Nodup) : ((jsSet m k v).map Prod.fst).Nodup := by
  induction m with
  | nil => simp [jsSet]
  | cons e es ih =>
    simp only [List.map_cons, List.nodup_cons] at h
    by_cases he : e.1 = k
    · simp only [jsSet, if_pos he, List.map_cons, List.nodup_cons]
      exact ⟨fun hk => h.1 (he ▸ hk), h.2⟩
    · simp only [jsSet, if_neg he, List.map_cons, List.nodup_cons]
      refine ⟨fun hk => ?_, ih h.2⟩
      rcases (keys_jsSet_mem es k v e.1).1 hk with h1 | h1
      · exact he h1
      · exact h.1 h1

theorem jsGet_mem {m : List (K × V)} {k : K} {v : V}
    (h : jsGet m k = some v) : (k, v) ∈ m := by
  induction m with
  | nil => simp [jsGet] at h
  | cons e es ih =>
    by_cases he : e.1 = k
    · simp only [jsGet, if_pos he, Option.some.injEq] at h
      exact List.mem_cons.2 (Or.inl (by rw [← he, ← h]))
    · simp only [jsGet, if_neg he] at h
      exact List.mem_cons_of_mem _ (ih h)

theorem mem_jsGet {m : List (K × V)} {k : K} {v : V}
    (hnd : (m.map Prod.fst).Nodup) (h : (k, v) ∈ m) : jsGet m k = some v := by
  induction m with
  | nil => simp at h
  | cons e es ih =>
    simp only [List.map_cons, List.nodup_cons] at hnd
    rcases List.mem_cons.1 h with h1 | h1
    · simp [jsGet, ← h1]
    · have hk : e.1 ≠ k := by
        intro he
        exact hnd.1 (he ▸ (List.mem_map.2 ⟨(k, v), h1, rfl⟩))
      simp [jsGet, hk, ih hnd.2 h1]

end JsMap

/-! ## Characterization of accumulate-into-a-map loops

All four map-building loops of the dashboard (the two accumulations of
`calculateCountryAggregates` and the two passes of `comparisonChartData`)
read the entry for the current row's key, combine, and write back. -/

section GroupFold

variable {α K V : Type} [DecidableEq K]
variable (key : α → K) (valF : α → Option V → V)

/-- One step of an accumulate-into-a-map loop. -/
def gStep (m : List (K × V)) (x : α) : List (K × V) :=
  jsSet m (key x) (valF x (jsGet m (key x)))

theorem foldl_gStep_ne_nil (l : List α) (m : List (K × V))
    (h : m ≠ [] ∨ l ≠ []) : l.foldl (gStep key valF) m ≠ [] := by
  induction l generalizing m with
  | nil =>
    rcases h with h | h
    · exact h
    · exact absurd rfl h
  | cons x xs ih =>
    exact ih (gStep key valF m x) (Or.inl (jsSet_ne_nil _ _ _))

theorem nodup_keys_foldl_gStep (l : List α) (m : List (K × V))
    (h : (m.map Prod.fst).Nodup) :
    ((l.foldl (gStep key valF) m).map Prod.fst).Nodup := by
  induction l generalizing m with
  | nil => exact h
  | cons x xs ih => exact ih _ (nodup_keys_jsSet _ _ h)

theorem keys_foldl_gStep_mem (l : List α) (m : List (K × V)) (k : K) :
    k ∈ (l.foldl (gStep key valF) m).map Prod.fst ↔
      k ∈ m.map Prod.fst ∨ k ∈ l.map key := by
  induction l generalizing m with
  | nil => simp
  | cons x xs ih =>
    simp only [List.foldl_cons, ih, gStep, keys_jsSet_mem, List.map_cons,
      List.mem_cons]
    tauto

theorem jsGet_foldl_gStep (l : List α) (m : List (K × V)) (k : K) :
    jsGet (l.foldl (gStep key valF) m) k =
      (l.filter fun x => decide (key x = k)).foldl
        (fun o x => some (valF x o)) (jsGet m k) := by
  induction l generalizing m with
  | nil => rfl
  | cons x xs ih =>
    simp only [List.foldl_cons]
    rw [ih]
    by_cases hk : key x = k
    · have hfil : (x :: xs).filter (fun y => decide (key y = k)) =
          x :: xs.filter (fun y => decide (key y = k)) := by
        simp [List.filter_cons, hk]
      rw [hfil, List.foldl_cons]
      congr 1
      simp [gStep, jsGet_jsSet, hk]
    · have hfil : (x :: xs).filter (fun y => decide (key y = k)) =
          xs.filter (fun y => decide (key y = k)) := by
        simp [List.filter_cons, hk]
      rw [hfil]
      congr 1
      simp only [gStep, jsGet_jsSet]
      rw [if_neg (fun h : k = key x => hk h.symm)]

theorem foldl_some_eq (f : α → Option V → V) (l : List α) (v : V) :
    l.foldl (fun o x => some (f x o)) (some v) =
      some (l.foldl (fun w x => f x (some w)) v) := by
  induction l generalizing v with
  | nil => rfl
  | cons x xs ih => simp [ih]

/-- Closed form of the lookup in a map accumulated from empty: the entry
for `k` is the combine-fold over exactly the rows whose key is `k`. -/
theorem jsGet_foldl_gStep_nil (l : List α) (k : K) :
    jsGet (l.foldl (gStep key valF) []) k =
      match l.filter fun x => decide (key x = k) with
      | [] => none
      | x :: xs => some (xs.foldl (fun w y => valF y (some w)) (valF x none)) := by
  rw [jsGet_foldl_gStep]
  cases hf : l.filter fun x => decide (key x = k) with
  | nil => rfl
  | cons x xs => simp [jsGet, foldl_some_eq]

theorem sum_snd_jsSet (f : V → ℚ) (m : List (K × V)) (k : K) (v : V) :
    ((jsSet m k v).map fun e => f e.2).sum + ((jsGet m k).map f).getD 0 =
      (m.map fun e => f e.2).sum + f v := by
  induction m with
  | nil => simp [jsSet, jsGet]
  | cons e es ih =>
    by_cases he : e.1 = k
    · simp only [jsSet, if_pos he, jsGet, List.map_cons, List.sum_cons]
      simp only [if_pos he, Option.map_some', Option.getD_some]
      ring
    · simp only [jsSet, if_neg he, jsGet, List.map_cons, List.sum_cons]
      linarith [ih]

theorem sum_snd_gStep (f : V → ℚ) (g : α → ℚ)
    (hf : ∀ x o, f (valF x o) = ((o.map f).getD 0) + g x)
    (m : List (K × V)) (x : α) :
    ((gStep key valF m x).map fun e => f e.2).sum =
      (m.map fun e => f e.2).sum + g x := by
  have h := sum_snd_jsSet f m (key x) (valF x (jsGet m (key x)))
  rw [hf x (jsGet m (key x))] at h
  simp only [gStep]
  linarith

theorem sum_snd_foldl_gStep (f : V → ℚ) (g : α → ℚ)
    (hf : ∀ x o, f (valF x o) = ((o.map f).getD 0) + g x)
    (l : List α) (m : List (K × V)) :
    ((l.foldl (gStep key valF) m).map fun e => f e.2).sum =
      (m.map fun e => f e.2).sum + (l.map g).sum := by
  induction l generalizing m with
  | nil => simp
  | cons x xs ih =>
    simp only [List.foldl_cons, List.map_cons, List.sum_cons]
    rw [ih, sum_snd_gStep key valF f g hf]
    ring

end GroupFold

/-! ## List helpers -/

theorem foldl_add_eq_sum (l : List ℚ) (s : ℚ) : l.foldl (· + ·) s = s + l.sum := by
  induction l generalizing s with
  | nil => simp
  | cons x xs ih =>
    rw [List.foldl_cons, ih, List.sum_cons]
    ring

theorem le_foldl_max (l : List ℚ) (s : ℚ) : s ≤ l.foldl max s := by
  induction l generalizing s with
  | nil => simp
  | cons x xs ih => exact le_trans (le_max_left s x) (ih (max s x))

theorem mem_le_foldl_max (l : List ℚ) (s : ℚ) : ∀ x ∈ l, x ≤ l.foldl max s := by
  induction l generalizing s with
  | nil => simp
  | cons y ys ih =>
    intro x hx
    rcases List.mem_cons.1 hx with h | h
    · subst h
      exact le_trans (le_max_right s x) (le_foldl_max ys (max s x))
    · exact ih (max s y) x h

theorem foldl_max_mem_or (l : List ℚ) (s : ℚ) :
    l.foldl max s ∈ l ∨ l.foldl max s = s := by
  induction l generalizing s with
  | nil => simp
  | cons y ys ih =>
    rw [List.foldl_cons]
    rcases ih (max s y) with h | h
    · exact Or.inl (List.mem_cons_of_mem _ h)
    · rcases max_cases s y with ⟨h1, _⟩ | ⟨h1, _⟩
      · exact Or.inr (h.trans h1)
      · exact Or.inl (by rw [h, h1]; exact List.mem_cons_self _ _)

theorem foldl_min_le (l : List ℚ) (s : ℚ) : l.foldl min s ≤ s := by
  induction l generalizing s with
  | nil => simp
  | cons x xs ih => exact le_trans (ih (min s x)) (min_le_left s x)

theorem foldl_min_le_mem (l : List ℚ) (s : ℚ) : ∀ x ∈ l, l.foldl min s ≤ x := by
  induction l generalizing s with
  | nil => simp
  | cons y ys ih =>
    intro x hx
    rcases List.mem_cons.1 hx with h | h
    · subst h
      exact le_trans (foldl_min_le ys (min s x)) (min_le_right s x)
    · exact ih (min s y) x h

theorem foldl_min_mem_or (l : List ℚ) (s : ℚ) :
    l.foldl min s ∈ l ∨ l.foldl min s = s := by
  induction l generalizing s with
  | nil => simp
  | cons y ys ih =>
    rw [List.foldl_cons]
    rcases ih (min s y) with h | h
    · exact Or.inl (List.mem_cons_of_mem _ h)
    · rcases min_cases s y with ⟨h1, _⟩ | ⟨h1, _⟩
      · exact Or.inr (h.trans h1)
      · exact Or.inl (by rw [h, h1]; exact List.mem_cons_self _ _)

/-- If the images of a list under `f` are pairwise distinct, filtering
for the image of a member finds exactly that member. -/
theorem filter_eq_singleton_of_nodup {β γ : Type} [DecidableEq γ] (f : β → γ)
    (l : List β) (p : β) (hnd : (l.map f).Nodup) (hp : p ∈ l) :
    l.filter (fun x => decide (f x = f p)) = [p] := by
  induction l with
  | nil => simp at hp
  | cons y ys ih =>
    simp only [List.map_cons, List.nodup_cons] at hnd
    rcases List.mem_cons.1 hp with h | h
    · subst h
      have hys : ys.filter (fun x => decide (f x = f p)) = [] := by
        apply List.filter_eq_nil_iff.2
        intro x hx
        simp only [decide_eq_true_eq]
        exact fun he => hnd.1 (he ▸ List.mem_map.2 ⟨x, hx, rfl⟩)
      simp [List.filter_cons, hys]
    · have hfy : ¬ (f y = f p) := fun he => hnd.1 (he ▸ List.mem_map.2 ⟨p, h, rfl⟩)
      simp [List.filter_cons, hfy, ih hnd.2 h]

/-! ## Closed forms for the two aggregation maps -/

/-- The combine function of `trendStep`:
`trendStep m r = jsSet m r.ds (trendValF r (jsGet m r.ds))`. -/
def trendValF (r : MovementRecord) (o : Option DateAcc) : DateAcc :=
  let dEntry := o.getD { count := 0, mobSum := 0, staySum := 0 }
  { count := dEntry.count + 1,
    mobSum := dEntry.mobSum + r.all_day_bing_tiles_visited_relative_change,
    staySum := dEntry.staySum + r.all_day_ratio_single_tile_users }

theorem trendStep_eq_gStep : trendStep = gStep (fun r => r.ds) trendValF := rfl

/-- The combine function of `regionStep`. -/
def regionValF (r : MovementRecord) (o : Option RegionStats) : RegionStats :=
  let rEntry := o.getD
    { name := r.polygon_name, avgMobility := 0, avgStay := 0,
      maxStay := -1, minMobility := 999, dataPoints := 0 }
  { name := rEntry.name,
    avgMobility := rEntry.avgMobility + r.all_day_bing_tiles_visited_relative_change,
    avgStay := rEntry.avgStay + r.all_day_ratio_single_tile_users,
    maxStay := max rEntry.maxStay r.all_day_ratio_single_tile_users,
    minMobility := min rEntry.minMobility r.all_day_bing_tiles_visited_relative_change,
    dataPoints := rEntry.dataPoints + 1 }

theorem regionStep_eq_gStep : regionStep = gStep (fun r => r.polygon_name) regionValF := rfl

theorem foldl_trendValF (fil : List MovementRecord) (v : DateAcc) :
    fil.foldl (fun w r => trendValF r (some w)) v =
      { count := v.count + fil.length,
        mobSum := v.mobSum +
          (fil.map fun r => r.all_day_bing_tiles_visited_relative_change).sum,
        staySum := v.staySum +
          (fil.map fun r => r.all_day_ratio_single_tile_users).sum } := by
  induction fil generalizing v with
  | nil =>
    cases v
    simp
  | cons r rs ih =>
    rw [List.foldl_cons, ih]
    simp only [trendValF, Option.getD_some, List.map_cons, List.sum_cons,
      List.length_cons, DateAcc.mk.injEq]
    refine ⟨by omega, by ring, by ring⟩

theorem foldl_regionValF (fil : List MovementRecord) (v : RegionStats) :
    fil.foldl (fun w r => regionValF r (some w)) v =
      { name := v.name,
        avgMobility := v.avgMobility +
          (fil.map fun r => r.all_day_bing_tiles_visited_relative_change).sum,
        avgStay := v.avgStay +
          (fil.map fun r => r.all_day_ratio_single_tile_users).sum,
        maxStay := (fil.map fun r => r.all_day_ratio_single_tile_users).foldl max v.maxStay,
        minMobility :=
          (fil.map fun r => r.all_day_bing_tiles_visited_relative_change).foldl min v.minMobility,
        dataPoints := v.dataPoints + fil.length } := by
  induction fil generalizing v with
  | nil =>
    cases v
    simp
  | cons r rs ih =>
    rw [List.foldl_cons, ih]
    simp only [regionValF, Option.getD_some, List.map_cons, List.sum_cons,
      List.length_cons, List.foldl_cons, RegionStats.mk.injEq]
    exact ⟨trivial, by ring, by ring, trivial, trivial, by omega⟩

theorem jsGet_dateMap_none (raw : List MovementRecord) (k : Nat)
    (hf : raw.filter (fun r => decide (r.ds = k)) = []) :
    jsGet (raw.foldl trendStep []) k = none := by
  rw [trendStep_eq_gStep, jsGet_foldl_gStep_nil, hf]

theorem jsGet_dateMap_some (raw : List MovementRecord) (k : Nat)
    (x : MovementRecord) (xs : List MovementRecord)
    (hf : raw.filter (fun r => decide (r.ds = k)) = x :: xs) :
    jsGet (raw.foldl trendStep []) k =
      some { count := (x :: xs).length,
             mobSum :=
               ((x :: xs).map fun r => r.all_day_bing_tiles_visited_relative_change).sum,
             staySum :=
               ((x :: xs).map fun r => r.all_day_ratio_single_tile_users).sum } := by
  rw [trendStep_eq_gStep, jsGet_foldl_gStep_nil, hf]
  simp only [foldl_trendValF, Option.some.injEq]
  simp only [trendValF, Option.getD_none, List.map_cons, List.sum_cons,
    List.length_cons, DateAcc.mk.injEq]
  refine ⟨by omega, by ring, by ring⟩

theorem jsGet_regionMap_none (raw : List MovementRecord) (k : String)
    (hf : raw.filter (fun r => decide (r.polygon_name = k)) = []) :
    jsGet (raw.foldl regionStep []) k = none := by
  rw [regionStep_eq_gStep, jsGet_foldl_gStep_nil, hf]

theorem jsGet_regionMap_some (raw : List MovementRecord) (k : String)
    (x : MovementRecord) (xs : List MovementRecord)
    (hf : raw.filter (fun r => decide (r.polygon_name = k)) = x :: xs) :
    jsGet (raw.foldl regionStep []) k =
      some { name := x.polygon_name,
             avgMobility :=
               ((x :: xs).map fun r => r.all_day_bing_tiles_visited_relative_change).sum,
             avgStay :=
               ((x :: xs).map fun r => r.all_day_ratio_single_tile_users).sum,
             maxStay :=
               ((x :: xs).map fun r => r.all_day_ratio_single_tile_users).foldl max (-1),
             minMobility :=
               ((x :: xs).map fun r => r.all_day_bing_tiles_visited_relative_change).foldl
                 min 999,
             dataPoints := (x :: xs).length } := by
  rw [regionStep_eq_gStep, jsGet_foldl_gStep_nil, hf]
  simp only [foldl_regionValF, Option.some.injEq]
  simp only [regionValF, Option.getD_none, List.map_cons, List.sum_cons,
    List.length_cons, List.foldl_cons, RegionStats.mk.injEq]
  exact ⟨trivial, by ring, by ring, trivial, trivial, by omega⟩

theorem foldl_max_spec (l : List ℚ) (s : ℚ) (hne : l ≠ []) (h : ∀ x ∈ l, s ≤ x) :
    l.foldl max s ∈ l ∧ ∀ x ∈ l, x ≤ l.foldl max s := by
  refine ⟨?_, mem_le_foldl_max l s⟩
  rcases foldl_max_mem_or l s with hm | hm
  · exact hm
  · obtain ⟨x, hx⟩ := List.exists_mem_of_ne_nil l hne
    have h1 := mem_le_foldl_max l s x hx
    rw [hm] at h1
    have h2 : x = s := le_antisymm h1 (h x hx)
    rw [hm, ← h2]
    exact hx

theorem foldl_min_spec (l : List ℚ) (s : ℚ) (hne : l ≠ []) (h : ∀ x ∈ l, x ≤ s) :
    l.foldl min s ∈ l ∧ ∀ x ∈ l, l.foldl min s ≤ x := by
  refine ⟨?_, foldl_min_le_mem l s⟩
  rcases foldl_min_mem_or l s with hm | hm
  · exact hm
  · obtain ⟨x, hx⟩ := List.exists_mem_of_ne_nil l hne
    have h1 := foldl_min_le_mem l s x hx
    rw [hm] at h1
    have h2 : x = s := le_antisymm (h x hx) h1
    rw [hm, ← h2]
    exact hx

theorem dateMap_nodup_keys (raw : List MovementRecord) :
    ((raw.foldl trendStep []).map Prod.fst).Nodup := by
  rw [trendStep_eq_gStep]
  exact nodup_keys_foldl_gStep _ _ raw [] (by simp)

theorem regionMap_nodup_keys (raw : List MovementRecord) :
    ((raw.foldl regionStep []).map Prod.fst).Nodup := by
  rw [regionStep_eq_gStep]
  exact nodup_keys_foldl_gStep _ _ raw [] (by simp)

theorem dateMap_entry (raw : List MovementRecord) (e : Nat × DateAcc)
    (he : e ∈ raw.foldl trendStep []) :
    raw.filter (fun r => decide (r.ds = e.1)) ≠ [] ∧
    e.2.count = (raw.filter (fun r => decide (r.ds = e.1))).length ∧
    e.2.mobSum = ((raw.filter (fun r => decide (r.ds = e.1))).map
      fun r => r.all_day_bing_tiles_visited_relative_change).sum ∧
    e.2.staySum = ((raw.filter (fun r => decide (r.ds = e.1))).map
      fun r => r.all_day_ratio_single_tile_users).sum := by
  have hg := mem_jsGet (dateMap_nodup_keys raw) (by simpa using he)
  cases hfil : raw.filter (fun r => decide (r.ds = e.1)) with
  | nil =>
    rw [jsGet_dateMap_none raw e.1 hfil] at hg
    exact absurd hg (by simp)
  | cons x xs =>
    rw [jsGet_dateMap_some raw e.1 x xs hfil] at hg
    have h2 := (Option.some.inj hg).symm
    refine ⟨by simp, ?_, ?_, ?_⟩ <;> rw [h2]

theorem regionMap_entry (raw : List MovementRecord) (e : String × RegionStats)
    (he : e ∈ raw.foldl regionStep []) :
    raw.filter (fun r => decide (r.polygon_name = e.1)) ≠ [] ∧
    e.2.name = e.1 ∧
    e.2.avgMobility = ((raw.filter (fun r => decide (r.polygon_name = e.1))).map
      fun r => r.all_day_bing_tiles_visited_relative_change).sum ∧
    e.2.avgStay = ((raw.filter (fun r => decide (r.polygon_name = e.1))).map
      fun r => r.all_day_ratio_single_tile_users).sum ∧
    e.2.maxStay = ((raw.filter (fun r => decide (r.polygon_name = e.1))).map
      fun r => r.all_day_ratio_single_tile_users).foldl max (-1) ∧
    e.2.minMobility = ((raw.filter (fun r => decide (r.polygon_name = e.1))).map
      fun r => r.all_day_bing_tiles_visited_relative_change).foldl min 999 ∧
    e.2.dataPoints = (raw.filter (fun r => decide (r.polygon_name = e.1))).length := by
  have hg := mem_jsGet (regionMap_nodup_keys raw) (by simpa using he)
  cases hfil : raw.filter (fun r => decide (r.polygon_name = e.1)) with
  | nil =>
    rw [jsGet_regionMap_none raw e.1 hfil] at hg
    exact absurd hg (by simp)
  | cons x xs =>
    have hx : x.polygon_name = e.1 := by
      have hmem : x ∈ raw.filter (fun r => decide (r.polygon_name = e.1)) := by
        rw [hfil]
        exact List.mem_cons_self _ _
      simpa using (List.mem_filter.1 hmem).2
    rw [jsGet_regionMap_some raw e.1 x xs hfil] at hg
    have h2 := (Option.some.inj hg).symm
    refine ⟨by simp, ?_, ?_, ?_, ?_, ?_, ?_⟩ <;> rw [h2]
    exact hx

/-- Unfolding equation for `calculateCountryAggregates` when the country
matches at least one record. -/
theorem calculateCountryAggregates_some (data : List MovementRecord) (country : String)
    (hc : country ≠ "")
    (hne : data.filter (fun d => decide (d.country = country)) ≠ []) :
    calculateCountryAggregates data country =
      some { trend := (((data.filter fun d => decide (d.country = country)).foldl trendStep
               []).map fun e =>
                 ({ ds := e.1, avgMobility := e.2.mobSum / (e.2.count : ℚ),
                    avgStay := e.2.staySum / (e.2.count : ℚ) } : TrendPoint)).mergeSort trendLe,
             matrix := ((data.filter fun d => decide (d.country = country)).foldl regionStep
               []).map fun e =>
                 { e.2 with
                   avgMobility := e.2.avgMobility / (e.2.dataPoints : ℚ),
                   avgStay := e.2.avgStay / (e.2.dataPoints : ℚ) },
             totalRegions :=
               ((data.filter fun d => decide (d.country = country)).foldl regionStep
                 []).length } := by
  unfold calculateCountryAggregates
  rw [if_neg hc, if_neg (by simpa [List.isEmpty_iff] using hne)]

theorem calculateCountryAggregates_eq_none_iff (data : List MovementRecord) (C : String) :
    calculateCountryAggregates data C = none ↔
      C = "" ∨ data.filter (fun d => decide (d.country = C)) = [] := by
  unfold calculateCountryAggregates
  by_cases hc : C = ""
  · simp [hc]
  · by_cases hf : data.filter (fun d => decide (d.country = C)) = []
    · simp [hc, hf]
    · simp [hc, hf, List.isEmpty_iff]

/-! ## Derived facts about the aggregate -/

/-- The finalized matrix rows carry the region-map keys as their names. -/
theorem matrix_names_eq_keys (raw : List MovementRecord) :
    (((raw.foldl regionStep []).map fun e =>
      ({ e.2 with
         avgMobility := e.2.avgMobility / (e.2.dataPoints : ℚ),
         avgStay := e.2.avgStay / (e.2.dataPoints : ℚ) } : RegionStats)).map
           RegionStats.name) =
      (raw.foldl regionStep []).map Prod.fst := by
  rw [List.map_map]
  exact List.map_congr_left fun e he => (regionMap_entry raw e he).2.1

theorem regionMap_keys_mem (raw : List MovementRecord) (k : String) :
    k ∈ (raw.foldl regionStep []).map Prod.fst ↔
      k ∈ raw.map MovementRecord.polygon_name := by
  rw [regionStep_eq_gStep]
  rw [keys_foldl_gStep_mem]
  simp

/-- Claim C1. For every country `C` with at least one matching record,
`calculateCountryAggregates` returns a non-null aggregate whose matrix
has exactly one entry per distinct region name among `C`'s records
(names pairwise distinct, and a name occurs in the matrix exactly when it
occurs among the matching records), and `matrix.length = totalRegions =`
the number of distinct region names. -/
theorem aggregate_matrix_one_entry_per_region (data : List MovementRecord) (C : String)
    (hc : C ≠ "") (hne : data.filter (fun d => decide (d.country = C)) ≠ []) :
    ∃ a, calculateCountryAggregates data C = some a ∧
      (a.matrix.map RegionStats.name).Nodup ∧
      (∀ n, n ∈ a.matrix.map RegionStats.name ↔
        n ∈ (data.filter fun d => decide (d.country = C)).map MovementRecord.polygon_name) ∧
      a.matrix.length = a.totalRegions ∧
      a.totalRegions =
        ((data.filter fun d => decide (d.country = C)).map
          MovementRecord.polygon_name).dedup.length := by
  rw [calculateCountryAggregates_some data C hc hne]
  refine ⟨_, rfl, ?_, ?_, ?_, ?_⟩
  · dsimp only
    rw [matrix_names_eq_keys]
    exact regionMap_nodup_keys _
  · intro n
    dsimp only
    rw [matrix_names_eq_keys]
    exact regionMap_keys_mem _ n
  · dsimp only
    exact List.length_map _ _
  · dsimp only
    set raw := data.filter fun d => decide (d.country = C) with hraw
    have h1 := regionMap_nodup_keys raw
    have h2 : (raw.map MovementRecord.polygon_name).dedup.Nodup := List.nodup_dedup _
    have hfin : ((raw.foldl regionStep []).map Prod.fst).toFinset =
        (raw.map MovementRecord.polygon_name).dedup.toFinset := by
      ext n
      simp only [List.mem_toFinset, List.mem_dedup]
      exact regionMap_keys_mem raw n
    have := List.toFinset_card_of_nodup h1
    rw [hfin, List.toFinset_card_of_nodup h2] at this
    rw [← List.length_map (raw.foldl regionStep []) Prod.fst, this]

theorem regionValF_avgMobility (x : MovementRecord) (o : Option RegionStats) :
    (regionValF x o).avgMobility =
      ((o.map RegionStats.avgMobility).getD 0) +
        x.all_day_bing_tiles_visited_relative_change := by
  cases o <;> simp [regionValF]

theorem trendValF_mobSum (x : MovementRecord) (o : Option DateAcc) :
    (trendValF x o).mobSum =
      ((o.map DateAcc.mobSum).getD 0) +
        x.all_day_bing_tiles_visited_relative_change := by
  cases o <;> simp [trendValF]

/-- The running per-region mobility sums total the raw mobility values. -/
theorem regionMap_mob_total (raw : List MovementRecord) :
    ((raw.foldl regionStep []).map fun e => RegionStats.avgMobility e.2).sum =
      (raw.map fun r => r.all_day_bing_tiles_visited_relative_change).sum := by
  rw [regionStep_eq_gStep]
  have h := sum_snd_foldl_gStep (fun r : MovementRecord => r.polygon_name) regionValF
    RegionStats.avgMobility (fun r => r.all_day_bing_tiles_visited_relative_change)
    regionValF_avgMobility raw []
  simpa using h

/-- The running per-date mobility sums total the raw mobility values. -/
theorem dateMap_mob_total (raw : List MovementRecord) :
    ((raw.foldl trendStep []).map fun e => DateAcc.mobSum e.2).sum =
      (raw.map fun r => r.all_day_bing_tiles_visited_relative_change).sum := by
  rw [trendStep_eq_gStep]
  have h := sum_snd_foldl_gStep (fun r : MovementRecord => r.ds) trendValF
    DateAcc.mobSum (fun r => r.all_day_bing_tiles_visited_relative_change)
    trendValF_mobSum raw []
  simpa using h

/-- Claim C2. For every country `C` with at least one matching record, the
matrix's `avgMobility * dataPoints` total, and the trend's
`avgMobility * (rows on that date)` total, both equal the grand total of
the mobility changes of `C`'s records (exactly, over `ℚ`). -/
theorem aggregate_weighted_sums_equal_grand_total (data : List MovementRecord) (C : String)
    (hc : C ≠ "") (hne : data.filter (fun d => decide (d.country = C)) ≠ []) :
    ∃ a, calculateCountryAggregates data C = some a ∧
      (a.matrix.map fun r => r.avgMobility * (r.dataPoints : ℚ)).sum =
        ((data.filter fun d => decide (d.country = C)).map
          fun r => r.all_day_bing_tiles_visited_relative_change).sum ∧
      (a.trend.map fun t => t.avgMobility *
          (((data.filter fun d => decide (d.country = C)).countP
            fun r => decide (r.ds = t.ds)) : ℚ)).sum =
        ((data.filter fun d => decide (d.country = C)).map
          fun r => r.all_day_bing_tiles_visited_relative_change).sum := by
  rw [calculateCountryAggregates_some data C hc hne]
  set raw := data.filter fun d => decide (d.country = C) with hraw
  refine ⟨_, rfl, ?_, ?_⟩
  · dsimp only
    rw [List.map_map]
    have hpt : ∀ e ∈ raw.foldl regionStep [],
        (((fun r : RegionStats => r.avgMobility * (r.dataPoints : ℚ)) ∘ fun e =>
          ({ e.2 with
             avgMobility := e.2.avgMobility / (e.2.dataPoints : ℚ),
             avgStay := e.2.avgStay / (e.2.dataPoints : ℚ) } : RegionStats))) e =
          RegionStats.avgMobility e.2 := by
      intro e he
      obtain ⟨hf, _, _, _, _, _, hdp⟩ := regionMap_entry raw e he
      have hlen : ((e.2).dataPoints : ℚ) ≠ 0 := by
        rw [hdp]
        exact_mod_cast fun h => hf (List.length_eq_zero.1 h)
      simp only [Function.comp]
      exact div_mul_cancel₀ _ hlen
    rw [List.map_congr_left hpt, regionMap_mob_total]
  · dsimp only
    have hperm : (((raw.foldl trendStep []).map fun e =>
          ({ ds := e.1, avgMobility := e.2.mobSum / (e.2.count : ℚ),
             avgStay := e.2.staySum / (e.2.count : ℚ) } : TrendPoint)).mergeSort
            trendLe).Perm
        ((raw.foldl trendStep []).map fun e =>
          ({ ds := e.1, avgMobility := e.2.mobSum / (e.2.count : ℚ),
             avgStay := e.2.staySum / (e.2.count : ℚ) } : TrendPoint)) :=
      List.mergeSort_perm _ _
    rw [List.Perm.sum_eq (hperm.map _), List.map_map]
    have hpt : ∀ e ∈ raw.foldl trendStep [],
        (((fun t : TrendPoint => t.avgMobility * ((raw.countP fun r => decide (r.ds = t.ds)) : ℚ)) ∘
          fun e => ({ ds := e.1, avgMobility := e.2.mobSum / (e.2.count : ℚ),
                      avgStay := e.2.staySum / (e.2.count : ℚ) } : TrendPoint))) e =
          DateAcc.mobSum e.2 := by
      intro e he
      obtain ⟨hf, hcount, _, _⟩ := dateMap_entry raw e he
      have hlen : ((e.2).count : ℚ) ≠ 0 := by
        rw [hcount]
        exact_mod_cast fun h => hf (List.length_eq_zero.1 h)
      simp only [Function.comp]
      rw [List.countP_eq_length_filter, ← hcount]
      exact div_mul_cancel₀ _ hlen
    rw [List.map_congr_left hpt, dateMap_mob_total]

/-- Claim C5. For every country `C` and region `R` with at least one
matching record (and measurement values in the ranges the engine assumes:
stay ratios at least the `-1` maximum seed, mobility changes at most the
`999` minimum seed), the matrix entry for `R` carries `R`'s row count,
the exact arithmetic means, the maximum stay ratio and the minimum
mobility change over `R`'s rows. -/
theorem aggregate_matrix_entry_stats (data : List MovementRecord) (C R : String)
    (hc : C ≠ "")
    (hne : (data.filter fun d => decide (d.country = C)).filter
      (fun r => decide (r.polygon_name = R)) ≠ [])
    (hstay : ∀ r ∈ data, (-1 : ℚ) ≤ r.all_day_ratio_single_tile_users)
    (hmob : ∀ r ∈ data, r.all_day_bing_tiles_visited_relative_change ≤ 999) :
    ∃ a e, calculateCountryAggregates data C = some a ∧ e ∈ a.matrix ∧ e.name = R ∧
      e.dataPoints = ((data.filter fun d => decide (d.country = C)).filter
        (fun r => decide (r.polygon_name = R))).length ∧
      e.avgMobility = (((data.filter fun d => decide (d.country = C)).filter
          (fun r => decide (r.polygon_name = R))).map
            fun r => r.all_day_bing_tiles_visited_relative_change).sum /
        (((data.filter fun d => decide (d.country = C)).filter
          (fun r => decide (r.polygon_name = R))).length : ℚ) ∧
      e.avgStay = (((data.filter fun d => decide (d.country = C)).filter
          (fun r => decide (r.polygon_name = R))).map
            fun r => r.all_day_ratio_single_tile_users).sum /
        (((data.filter fun d => decide (d.country = C)).filter
          (fun r => decide (r.polygon_name = R))).length : ℚ) ∧
      (e.maxStay ∈ ((data.filter fun d => decide (d.country = C)).filter
          (fun r => decide (r.polygon_name = R))).map
            (fun r => r.all_day_ratio_single_tile_users) ∧
        ∀ x ∈ ((data.filter fun d => decide (d.country = C)).filter
          (fun r => decide (r.polygon_name = R))).map
            (fun r => r.all_day_ratio_single_tile_users), x ≤ e.maxStay) ∧
      (e.minMobility ∈ ((data.filter fun d => decide (d.country = C)).filter
          (fun r => decide (r.polygon_name = R))).map
            (fun r => r.all_day_bing_tiles_visited_relative_change) ∧
        ∀ x ∈ ((data.filter fun d => decide (d.country = C)).filter
          (fun r => decide (r.polygon_name = R))).map
            (fun r => r.all_day_bing_tiles_visited_relative_change),
          e.minMobility ≤ x) := by
  have hneraw : data.filter (fun d => decide (d.country = C)) ≠ [] := by
    intro h
    rw [h] at hne
    exact hne rfl
  rw [calculateCountryAggregates_some data C hc hneraw]
  cases hx : (data.filter fun d => decide (d.country = C)).filter
      (fun r => decide (r.polygon_name = R)) with
  | nil => exact absurd hx hne
  | cons x xs =>
    have hjs := jsGet_regionMap_some (data.filter fun d => decide (d.country = C)) R x xs hx
    have hmem := jsGet_mem hjs
    have hxrows : x ∈ (data.filter fun d => decide (d.country = C)).filter
        (fun r => decide (r.polygon_name = R)) := by
      rw [hx]
      exact List.mem_cons_self _ _
    have hxname : x.polygon_name = R := by
      simpa using (List.mem_filter.1 hxrows).2
    have hsub : ∀ r ∈ (x :: xs : List MovementRecord), r ∈ data := by
      intro r hr
      rw [← hx] at hr
      exact List.mem_of_mem_filter (List.mem_of_mem_filter hr)
    refine ⟨_, _, rfl, List.mem_map.2 ⟨_, hmem, rfl⟩, hxname, rfl, rfl, rfl, ?_, ?_⟩
    · refine foldl_max_spec _ _ (by simp) ?_
      intro y hy
      obtain ⟨r, hr, rfl⟩ := List.mem_map.1 hy
      exact hstay r (hsub r hr)
    · refine foldl_min_spec _ _ (by simp) ?_
      intro y hy
      obtain ⟨r, hr, rfl⟩ := List.mem_map.1 hy
      exact hmob r (hsub r hr)

theorem aggregate_trend_ne_nil (data : List MovementRecord) (C : String)
    (a : CountryAggregate) (h : calculateCountryAggregates data C = some a) :
    a.trend ≠ [] := by
  unfold calculateCountryAggregates at h
  by_cases hc : C = ""
  · simp [hc] at h
  rw [if_neg hc] at h
  by_cases hf : (data.filter fun d => decide (d.country = C)).isEmpty
  · rw [if_pos hf] at h
    exact absurd h (by simp)
  · rw [if_neg hf] at h
    have ha := (Option.some.inj h).symm
    have hraw : data.filter (fun d => decide (d.country = C)) ≠ [] := by
      simpa [List.isEmpty_iff] using hf
    have hmap : (data.filter fun d => decide (d.country = C)).foldl trendStep [] ≠ [] := by
      rw [trendStep_eq_gStep]
      exact foldl_gStep_ne_nil _ _ _ [] (Or.inr hraw)
    intro htr
    rw [ha] at htr
    simp only at htr
    have := congrArg List.length htr
    rw [List.length_mergeSort, List.length_map] at this
    exact hmap (List.length_eq_zero.1 (by simpa using this))

/-- Claim C3. The two aggregation paths agree: reshaping the whole-country
normalized series through the Region-as-Aggregate adapter produces
exactly the aggregate's trend (same dates in the same order, equal
`avgMobility`/`avgStay` everywhere), and the two results are null in
exactly the same cases (empty country selector or no matching record). -/
theorem normalize_asAggregate_agrees_with_aggregate (data : List MovementRecord) (C : String) :
    Option.map CountryAggregate.trend
        (calculateRegionAsAggregate (getNormalizedSeries data C WHOLE_COUNTRY_OPTION) C) =
      Option.map CountryAggregate.trend (calculateCountryAggregates data C) ∧
    (calculateRegionAsAggregate (getNormalizedSeries data C WHOLE_COUNTRY_OPTION) C = none ↔
      C = "" ∨ data.filter (fun d => decide (d.country = C)) = []) := by
  by_cases hc : C = ""
  · subst hc
    have hnorm : getNormalizedSeries data "" WHOLE_COUNTRY_OPTION = [] := by
      unfold getNormalizedSeries
      rw [if_pos (Or.inl rfl)]
    rw [hnorm]
    have hagg : calculateCountryAggregates data "" = none := by
      unfold calculateCountryAggregates
      rw [if_pos rfl]
    rw [hagg]
    exact ⟨rfl, by simp [calculateRegionAsAggregate]⟩
  · have hsent : ¬ (C = "" ∨ WHOLE_COUNTRY_OPTION = "") := by
      rintro (h | h)
      · exact hc h
      · exact absurd h (by decide)
    cases hagg : calculateCountryAggregates data C with
    | none =>
      have hnorm : getNormalizedSeries data C WHOLE_COUNTRY_OPTION = [] := by
        unfold getNormalizedSeries
        rw [if_neg hsent, if_pos rfl, hagg]
      rw [hnorm]
      have hiff := (calculateCountryAggregates_eq_none_iff data C).1 hagg
      exact ⟨rfl, by simpa [calculateRegionAsAggregate] using hiff⟩
    | some a =>
      have hnorm : getNormalizedSeries data C WHOLE_COUNTRY_OPTION =
          a.trend.map fun t =>
            ({ ds := t.ds, mobility := t.avgMobility, stay := t.avgStay,
               baseline_type := "AVERAGE" } : NormalizedDataPoint) := by
        unfold getNormalizedSeries
        rw [if_neg hsent, if_pos rfl, hagg]
      rw [hnorm]
      cases htr : a.trend with
      | nil => exact absurd htr (aggregate_trend_ne_nil data C a hagg)
      | cons t ts =>
        rw [List.map_cons]
        constructor
        · simp only [calculateRegionAsAggregate, Option.map_some']
          rw [htr]
          refine congrArg some ?_
          simp only [List.map_cons, List.map_map]
          congr 1
          exact (List.map_congr_left fun p _ => rfl).trans (List.map_id _)
        · constructor
          · intro habs
            exact absurd habs (by simp [calculateRegionAsAggregate])
          · rintro (h | h)
            · exact absurd h hc
            · have h2 := (calculateCountryAggregates_eq_none_iff data C).2 (Or.inr h)
              rw [hagg] at h2
              exact absurd h2 (by simp)

/-- Claim C8. The core's absence-over-exception policy: the aggregator
returns `null` exactly when the country selector is empty or matches no
record; the normalizer returns the empty sequence whenever a selector is
empty; the summarizer of an empty series is `null`; and in particular
`aggregate([], "X") = null`, `normalize([], "X", "A") = []`,
`summarize([]) = null`. -/
theorem core_absence_over_exception (data : List MovementRecord) (c r C : String) :
    (calculateCountryAggregates data C = none ↔
      C = "" ∨ data.filter (fun d => decide (d.country = C)) = []) ∧
    ((c = "" ∨ r = "") → getNormalizedSeries data c r = []) ∧
    calculateCountryAggregates [] "X" = none ∧
    getNormalizedSeries [] "X" "A" = [] ∧
    calculateStats [] = none := by
  refine ⟨calculateCountryAggregates_eq_none_iff data C, ?_, ?_, ?_, rfl⟩
  · intro h
    unfold getNormalizedSeries
    rw [if_pos h]
  · exact (calculateCountryAggregates_eq_none_iff [] "X").2 (Or.inr rfl)
  · unfold getNormalizedSeries
    rw [if_neg (by decide), if_neg (by decide)]
    simp

/-! ## Date-sortedness of the engine's outputs -/

theorem sorted_ds_mergeSort_record (l : List MovementRecord) :
    List.Sorted (· ≤ ·) ((l.mergeSort recordLe).map MovementRecord.ds) := by
  have hp := @List.sorted_mergeSort _ recordLe
    (fun a b c h1 h2 => by
      simp only [recordLe, decide_eq_true_eq] at h1 h2 ⊢
      omega)
    (fun a b => by simp only [recordLe]; rw [Bool.or_eq_true]; simp [le_total]) l
  rw [List.Sorted, List.pairwise_map]
  exact hp.imp fun h => by simpa [recordLe] using h

theorem sorted_ds_mergeSort_trend (l : List TrendPoint) :
    List.Sorted (· ≤ ·) ((l.mergeSort trendLe).map TrendPoint.ds) := by
  have hp := @List.sorted_mergeSort _ trendLe
    (fun a b c h1 h2 => by
      simp only [trendLe, decide_eq_true_eq] at h1 h2 ⊢
      omega)
    (fun a b => by simp only [trendLe]; rw [Bool.or_eq_true]; simp [le_total]) l
  rw [List.Sorted, List.pairwise_map]
  exact hp.imp fun h => by simpa [trendLe] using h

theorem sorted_ds_mergeSort_chart (l : List ChartDataPoint) :
    List.Sorted (· ≤ ·) ((l.mergeSort chartLe).map ChartDataPoint.ds) := by
  have hp := @List.sorted_mergeSort _ chartLe
    (fun a b c h1 h2 => by
      simp only [chartLe, decide_eq_true_eq] at h1 h2 ⊢
      omega)
    (fun a b => by simp only [chartLe]; rw [Bool.or_eq_true]; simp [le_total]) l
  rw [List.Sorted, List.pairwise_map]
  exact hp.imp fun h => by simpa [chartLe] using h

theorem aggregate_trend_ds_sorted (data : List MovementRecord) (C : String)
    (a : CountryAggregate) (h : calculateCountryAggregates data C = some a) :
    List.Sorted (· ≤ ·) (a.trend.map TrendPoint.ds) := by
  unfold calculateCountryAggregates at h
  by_cases hc : C = ""
  · simp [hc] at h
  rw [if_neg hc] at h
  by_cases hf : (data.filter fun d => decide (d.country = C)).isEmpty
  · rw [if_pos hf] at h
    exact absurd h (by simp)
  · rw [if_neg hf] at h
    have ha := (Option.some.inj h).symm
    rw [ha]
    exact sorted_ds_mergeSort_trend _

/-- Every normalized series the engine produces is date-sorted ascending. -/
theorem getNormalizedSeries_ds_sorted (data : List MovementRecord) (c r : String) :
    List.Sorted (· ≤ ·) ((getNormalizedSeries data c r).map NormalizedDataPoint.ds) := by
  unfold getNormalizedSeries
  by_cases h0 : c = "" ∨ r = ""
  · rw [if_pos h0]
    simp
  rw [if_neg h0]
  by_cases hw : r = WHOLE_COUNTRY_OPTION
  · rw [if_pos hw]
    cases hagg : calculateCountryAggregates data c with
    | none => simp
    | some a =>
      have hs := aggregate_trend_ds_sorted data c a hagg
      rw [List.Sorted, List.pairwise_map] at hs ⊢
      rw [List.pairwise_map]
      exact hs
  · rw [if_neg hw]
    have hs := sorted_ds_mergeSort_record
      (data.filter fun d => decide (d.country = c ∧ d.polygon_name = r))
    rw [List.Sorted, List.pairwise_map] at hs ⊢
    rw [List.pairwise_map]
    exact hs

/-- Claim C6. For a non-empty country and a non-sentinel, non-empty region
selector, the normalizer returns exactly the records matching both
selectors (as a permutation carrying over `date`, `mobilityChange`,
`stayHomeRatio` and `baselineType` unchanged), and every series it
returns — for any selectors — is date-sorted ascending. -/
theorem normalize_specific_region (data : List MovementRecord) (c r : String)
    (hc : c ≠ "") (hr0 : r ≠ "") (hr : r ≠ WHOLE_COUNTRY_OPTION) :
    ((getNormalizedSeries data c r).map fun p =>
        (p.ds, p.mobility, p.stay, p.baseline_type)).Perm
      ((data.filter fun d => decide (d.country = c ∧ d.polygon_name = r)).map fun d =>
        (d.ds, d.all_day_bing_tiles_visited_relative_change,
          d.all_day_ratio_single_tile_users, d.baseline_type)) ∧
    ∀ c' r', List.Sorted (· ≤ ·)
      ((getNormalizedSeries data c' r').map NormalizedDataPoint.ds) := by
  refine ⟨?_, fun c' r' => getNormalizedSeries_ds_sorted data c' r'⟩
  unfold getNormalizedSeries
  rw [if_neg (by rintro (h | h) <;> [exact hc h; exact hr0 h]), if_neg hr]
  rw [List.map_map]
  exact (List.mergeSort_perm _ _).map _

theorem getLast?_cons_eq_getLastD {β : Type} (d : β) (ds : List β) :
    (d :: ds).getLast? = some ((d :: ds).getLastD d) := by
  induction ds generalizing d with
  | nil => rfl
  | cons e es ih =>
    rw [List.getLast?_cons_cons, ih]
    rfl

/-- Claim C7. For every non-empty series, `calculateStats` returns a
summary whose `count` is the series length, whose `start`/`end` are the
date fields of the first and last elements, whose `maxStayHome` is the
maximum `stay` value (as a percentage, one decimal), and whose
`avgMobility` is the mean of the `mobility` values (same formatting). -/
theorem stats_of_nonempty (dataset : List NormalizedDataPoint) (h : dataset ≠ []) :
    ∃ s, calculateStats dataset = some s ∧
      s.count = dataset.length ∧
      (∃ hd, dataset.head? = some hd ∧ s.start = hd.ds) ∧
      (∃ lst, dataset.getLast? = some lst ∧ s.«end» = lst.ds) ∧
      (∃ m, m ∈ dataset.map (fun p => p.stay) ∧
        (∀ x ∈ dataset.map (fun p => p.stay), x ≤ m) ∧
        s.maxStayHome = toFixed1 (m * 100)) ∧
      s.avgMobility =
        toFixed1 ((dataset.map fun p => p.mobility).sum / (dataset.length : ℚ) * 100) := by
  cases dataset with
  | nil => exact absurd rfl h
  | cons d ds =>
    refine ⟨_, rfl, rfl, ⟨d, rfl, rfl⟩, ?_, ?_, ?_⟩
    · exact ⟨(d :: ds).getLastD d, getLast?_cons_eq_getLastD d ds, rfl⟩
    · refine ⟨(ds.map fun p => p.stay).foldl max d.stay, ?_, ?_, rfl⟩
      · rcases foldl_max_mem_or (ds.map fun p => p.stay) d.stay with hm | hm
        · exact List.mem_cons_of_mem _ (by simpa using hm)
        · rw [hm]
          simp
      · intro x hx
        simp only [List.map_cons, List.mem_cons] at hx
        rcases hx with h1 | h1
        · rw [h1]
          exact le_foldl_max _ _
        · exact mem_le_foldl_max _ _ x h1
    · show toFixed1 _ = toFixed1 _
      congr 1
      rw [foldl_add_eq_sum, zero_add, List.length_map]

/-! ## Characterization of the comparison merge -/

/-- The row written by the primary pass of the merge. -/
def primRow (primaryLabel : String) (d : NormalizedDataPoint) : ChartDataPoint :=
  { ds := d.ds, primary_mobility := some d.mobility, primary_stay := some d.stay,
    primary_label := some primaryLabel,
    secondary_mobility := none, secondary_stay := none, secondary_label := none }

/-- The combine function of `primaryStep` (it overwrites any existing
row). -/
def primValF (primaryLabel : String) (d : NormalizedDataPoint)
    (_ : Option ChartDataPoint) : ChartDataPoint :=
  primRow primaryLabel d

theorem primaryStep_eq_gStep (pl : String) :
    primaryStep pl = gStep (fun d => d.ds) (primValF pl) := rfl

/-- The combine function of `secondaryStep`. -/
def secValF (secondaryLabel : String) (d : NormalizedDataPoint)
    (o : Option ChartDataPoint) : ChartDataPoint :=
  let existing := o.getD
    { ds := d.ds, primary_mobility := none, primary_stay := none, primary_label := none,
      secondary_mobility := none, secondary_stay := none, secondary_label := none }
  { existing with
    secondary_mobility := some d.mobility, secondary_stay := some d.stay,
    secondary_label := some secondaryLabel }

theorem secondaryStep_eq_gStep (sl : String) :
    secondaryStep sl = gStep (fun d => d.ds) (secValF sl) := rfl

theorem foldl_const_getLastD {β γ : Type} (f : β → γ) (xs : List β) (v : γ) :
    xs.foldl (fun _ y => f y) v = (xs.map f).getLastD v := by
  induction xs generalizing v with
  | nil => rfl
  | cons y ys ih => rw [List.foldl_cons, ih (f y), List.map_cons, List.getLastD_cons]

theorem getLastD_map {β γ : Type} (f : β → γ) (l : List β) (d : β) :
    (l.map f).getLastD (f d) = f (l.getLastD d) := by
  induction l generalizing d with
  | nil => rfl
  | cons y ys ih => rw [List.map_cons, List.getLastD_cons, List.getLastD_cons, ih y]

/-- Lookup in the map seeded by the primary pass: the row of the last
primary point with that date (or nothing). -/
theorem jsGet_primary (a : List NormalizedDataPoint) (pl : String) (k : Nat) :
    jsGet (a.foldl (primaryStep pl) []) k =
      ((a.filter fun p => decide (p.ds = k)).getLast?).map (primRow pl) := by
  rw [primaryStep_eq_gStep, jsGet_foldl_gStep_nil]
  cases hf : a.filter fun p => decide (p.ds = k) with
  | nil => rfl
  | cons x xs =>
    show some _ = _
    have h1 : xs.foldl (fun w y => primValF pl y (some w)) (primValF pl x none) =
        (xs.map (primRow pl)).getLastD (primRow pl x) := foldl_const_getLastD _ _ _
    rw [h1, getLastD_map, getLast?_cons_eq_getLastD]
    simp only [Option.map_some', List.getLastD_eq_getLast?, Option.some.injEq]
    congr 1
    cases xs with
    | nil => rfl
    | cons z zs => rw [List.getLast?_cons_cons]

theorem jsGet_primary_of_mem (a : List NormalizedDataPoint) (pl : String)
    (ha : (a.map fun p => p.ds).Nodup) (p : NormalizedDataPoint) (hp : p ∈ a) :
    jsGet (a.foldl (primaryStep pl) []) p.ds = some (primRow pl p) := by
  rw [jsGet_primary]
  rw [filter_eq_singleton_of_nodup (fun p => p.ds) a p ha hp]
  rfl

theorem jsGet_primary_of_not_mem (a : List NormalizedDataPoint) (pl : String) (k : Nat)
    (hk : k ∉ a.map fun p => p.ds) :
    jsGet (a.foldl (primaryStep pl) []) k = none := by
  rw [jsGet_primary]
  have : a.filter (fun p => decide (p.ds = k)) = [] := by
    apply List.filter_eq_nil_iff.2
    intro p hp
    simp only [decide_eq_true_eq]
    exact fun he => hk (he ▸ List.mem_map.2 ⟨p, hp, rfl⟩)
  rw [this]
  rfl

theorem secValF_collapse (sl : String) (q y : NormalizedDataPoint)
    (h : q.ds = y.ds) (o : Option ChartDataPoint) :
    secValF sl q (some (secValF sl y o)) = secValF sl q o := by
  cases o <;> simp [secValF, h]

theorem getLastD_cons_mem {β : Type} (z : β) (zs : List β) :
    (z :: zs).getLastD z ∈ z :: zs := by
  induction zs generalizing z with
  | nil => simp [List.getLastD]
  | cons w ws ih =>
    show (w :: ws).getLastD w ∈ z :: w :: ws
    exact List.mem_cons_of_mem _ (ih w)

theorem foldl_secValF (sl : String) (k : Nat) (fil : List NormalizedDataPoint)
    (hfil : ∀ q ∈ fil, q.ds = k) (o : Option ChartDataPoint) :
    fil.foldl (fun o x => some (secValF sl x o)) o =
      match fil.getLast? with
      | none => o
      | some q => some (secValF sl q o) := by
  induction fil generalizing o with
  | nil => rfl
  | cons y ys ih =>
    rw [List.foldl_cons]
    rw [ih (fun q hq => hfil q (List.mem_cons_of_mem _ hq))]
    cases hys : ys with
    | nil => rfl
    | cons z zs =>
      have hlast : (z :: zs).getLast? = some ((z :: zs).getLastD z) :=
        getLast?_cons_eq_getLastD z zs
      have hqmem : ((z :: zs).getLastD z) ∈ y :: ys := by
        rw [hys]
        exact List.mem_cons_of_mem _ (getLastD_cons_mem z zs)
      have hqk : ((z :: zs).getLastD z).ds = y.ds := by
        rw [hfil _ hqmem, hfil y (List.mem_cons_self _ _)]
      show (match (z :: zs).getLast? with
          | none => some (secValF sl y o)
          | some q => some (secValF sl q (some (secValF sl y o)))) =
        match (y :: z :: zs).getLast? with
        | none => o
        | some q => some (secValF sl q o)
      rw [List.getLast?_cons_cons, hlast]
      exact congrArg some (secValF_collapse sl _ y hqk o)

/-- Lookup after the secondary pass: the last secondary point with that
date is layered (secondary fields only) over the primary row, or over a
fresh all-null row if the date was absent from the primary map. -/
theorem jsGet_secondary (b : List NormalizedDataPoint) (sl : String)
    (m0 : List (Nat × ChartDataPoint)) (k : Nat) :
    jsGet (b.foldl (secondaryStep sl) m0) k =
      match (b.filter fun q => decide (q.ds = k)).getLast? with
      | none => jsGet m0 k
      | some q => some (secValF sl q (jsGet m0 k)) := by
  rw [secondaryStep_eq_gStep, jsGet_foldl_gStep]
  exact foldl_secValF sl k _ (fun q hq => by simpa using (List.mem_filter.1 hq).2) _

/-- Every entry of the chart maps is stored under its own date. -/
theorem wf_ds_chart_fold (key : NormalizedDataPoint → Nat)
    (valF : NormalizedDataPoint → Option ChartDataPoint → ChartDataPoint)
    (hval : ∀ x o, (∀ row, o = some row → row.ds = key x) → (valF x o).ds = key x)
    (l : List NormalizedDataPoint) (m : List (Nat × ChartDataPoint))
    (hm : ∀ e ∈ m, (e.2).ds = e.1) :
    ∀ e ∈ l.foldl (gStep key valF) m, (e.2).ds = e.1 := by
  induction l generalizing m with
  | nil => exact hm
  | cons x xs ih =>
    rw [List.foldl_cons]
    refine ih (gStep key valF m x) ?_
    intro e he
    rcases mem_jsSet he with h1 | h1
    · rw [h1]
      refine hval x _ ?_
      intro row hrow
      exact hm ((key x, row)) (jsGet_mem hrow)
    · exact hm e h1

theorem wf_ds_m0 (a : List NormalizedDataPoint) (pl : String) :
    ∀ e ∈ a.foldl (primaryStep pl) [], (e.2).ds = e.1 := by
  rw [primaryStep_eq_gStep]
  exact wf_ds_chart_fold (fun d => d.ds) (primValF pl) (fun x o _ => rfl) a [] (by simp)

theorem wf_ds_m1 (a b : List NormalizedDataPoint) (pl sl : String) :
    ∀ e ∈ b.foldl (secondaryStep sl) (a.foldl (primaryStep pl) []), (e.2).ds = e.1 := by
  rw [secondaryStep_eq_gStep]
  refine wf_ds_chart_fold _ _ ?_ b _ (wf_ds_m0 a pl)
  intro x o ho
  cases o with
  | none => rfl
  | some row =>
    show ((secValF sl x (some row))).ds = x.ds
    simp [secValF, ho row rfl]

theorem m0_keys_nodup (a : List NormalizedDataPoint) (pl : String) :
    ((a.foldl (primaryStep pl) []).map Prod.fst).Nodup := by
  rw [primaryStep_eq_gStep]
  exact nodup_keys_foldl_gStep _ _ a [] (by simp)

theorem m1_keys_nodup (a b : List NormalizedDataPoint) (pl sl : String) :
    ((b.foldl (secondaryStep sl) (a.foldl (primaryStep pl) [])).map Prod.fst).Nodup := by
  rw [secondaryStep_eq_gStep]
  exact nodup_keys_foldl_gStep _ _ b _ (m0_keys_nodup a pl)

theorem m1_keys_mem (a b : List NormalizedDataPoint) (pl sl : String) (k : Nat) :
    k ∈ (b.foldl (secondaryStep sl) (a.foldl (primaryStep pl) [])).map Prod.fst ↔
      k ∈ a.map (fun p => p.ds) ∨ k ∈ b.map (fun p => p.ds) := by
  rw [secondaryStep_eq_gStep, keys_foldl_gStep_mem, primaryStep_eq_gStep,
    keys_foldl_gStep_mem]
  simp only [List.map_nil, List.not_mem_nil, false_or]

/-- With comparison on, `comparisonChartData` is the secondary fold over
the primary fold, sorted (also when the secondary series is empty, since
the skipped branch coincides with an empty fold). -/
theorem comparisonChartData_compare_eq (a b : List NormalizedDataPoint) (pl sl : String) :
    comparisonChartData a b true pl sl =
      ((b.foldl (secondaryStep sl) (a.foldl (primaryStep pl) [])).map Prod.snd).mergeSort
        chartLe := by
  cases b with
  | nil => simp [comparisonChartData]
  | cons q qs => simp [comparisonChartData]

/-- Claim C4. For series with internally distinct dates, the comparison
merge is a full outer join: exactly one row per date of either series,
sorted ascending by date; rows for a primary date carry that point's
mobility/stay as non-null primary values, rows for a secondary date carry
that point's values as secondary fields, and rows whose date is absent
from the primary series have `primary_mobility`/`primary_stay` present
but null. -/
theorem merge_outer_join_spec (a b : List NormalizedDataPoint) (pl sl : String)
    (ha : (a.map fun p => p.ds).Nodup) (hb : (b.map fun p => p.ds).Nodup) :
    ((comparisonChartData a b true pl sl).map fun row => row.ds).Nodup ∧
    (∀ k, (k ∈ (comparisonChartData a b true pl sl).map fun row => row.ds) ↔
      (k ∈ a.map fun p => p.ds) ∨ (k ∈ b.map fun p => p.ds)) ∧
    (comparisonChartData a b true pl sl).length =
      ((a.map fun p => p.ds) ++ (b.map fun p => p.ds)).dedup.length ∧
    List.Sorted (· ≤ ·) ((comparisonChartData a b true pl sl).map fun row => row.ds) ∧
    (∀ row ∈ comparisonChartData a b true pl sl, ∀ p ∈ a, p.ds = row.ds →
      row.primary_mobility = some p.mobility ∧ row.primary_stay = some p.stay) ∧
    (∀ row ∈ comparisonChartData a b true pl sl, ∀ q ∈ b, q.ds = row.ds →
      row.secondary_mobility = some q.mobility ∧ row.secondary_stay = some q.stay) ∧
    (∀ row ∈ comparisonChartData a b true pl sl, (row.ds ∉ a.map fun p => p.ds) →
      row.primary_mobility = none ∧ row.primary_stay = none) := by
  have hceq := comparisonChartData_compare_eq a b pl sl
  have hwf := wf_ds_m1 a b pl sl
  have hnodup := m1_keys_nodup a b pl sl
  have hperm : (comparisonChartData a b true pl sl).Perm
      ((b.foldl (secondaryStep sl) (a.foldl (primaryStep pl) [])).map Prod.snd) := by
    rw [hceq]
    exact List.mergeSort_perm _ _
  have hvalkeys : ((b.foldl (secondaryStep sl) (a.foldl (primaryStep pl) [])).map
        Prod.snd).map (fun row => row.ds) =
      (b.foldl (secondaryStep sl) (a.foldl (primaryStep pl) [])).map Prod.fst := by
    rw [List.map_map]
    exact List.map_congr_left fun e he => hwf e he
  have hdsperm : ((comparisonChartData a b true pl sl).map fun row => row.ds).Perm
      ((b.foldl (secondaryStep sl) (a.foldl (primaryStep pl) [])).map Prod.fst) := by
    rw [← hvalkeys]
    exact hperm.map _
  have hrowget : ∀ row ∈ comparisonChartData a b true pl sl,
      jsGet (b.foldl (secondaryStep sl) (a.foldl (primaryStep pl) [])) row.ds = some row := by
    intro row hr
    obtain ⟨e, he, hrr⟩ := List.mem_map.1 (hperm.mem_iff.1 hr)
    rw [← hrr, hwf e he]
    exact mem_jsGet hnodup he
  refine ⟨?_, ?_, ?_, ?_, ?_, ?_, ?_⟩
  · exact (List.Perm.nodup_iff hdsperm).2 hnodup
  · intro k
    rw [hdsperm.mem_iff]
    exact m1_keys_mem a b pl sl k
  · have hl1 : (comparisonChartData a b true pl sl).length =
        ((b.foldl (secondaryStep sl) (a.foldl (primaryStep pl) [])).map Prod.fst).length := by
      rw [hceq, List.length_mergeSort, List.length_map, List.length_map]
    have hdnodup : (((a.map fun p => p.ds) ++ b.map fun p => p.ds) :
        List Nat).dedup.Nodup := List.nodup_dedup _
    have hfin : ((b.foldl (secondaryStep sl) (a.foldl (primaryStep pl) [])).map
          Prod.fst).toFinset =
        (((a.map fun p => p.ds) ++ b.map fun p => p.ds) : List Nat).dedup.toFinset := by
      ext k
      simp only [List.mem_toFinset, List.mem_dedup, List.mem_append]
      exact m1_keys_mem a b pl sl k
    have h1 := List.toFinset_card_of_nodup hnodup
    rw [hfin, List.toFinset_card_of_nodup hdnodup] at h1
    rw [hl1, ← h1]
  · rw [hceq]
    exact sorted_ds_mergeSort_chart _
  · intro row hrow p hp hpds
    have hg := hrowget row hrow
    rw [jsGet_secondary] at hg
    have hg0 : jsGet (a.foldl (primaryStep pl) []) row.ds = some (primRow pl p) := by
      rw [← hpds]
      exact jsGet_primary_of_mem a pl ha p hp
    cases hlast : (b.filter fun q => decide (q.ds = row.ds)).getLast? with
    | none =>
      rw [hlast] at hg
      have hg' : jsGet (a.foldl (primaryStep pl) []) row.ds = some row := hg
      rw [hg0] at hg'
      have hr := Option.some.inj hg'
      rw [← hr]
      exact ⟨rfl, rfl⟩
    | some q =>
      rw [hlast] at hg
      have hg' : some (secValF sl q (jsGet (a.foldl (primaryStep pl) []) row.ds)) =
          some row := hg
      rw [hg0] at hg'
      have hr := Option.some.inj hg'
      rw [← hr]
      exact ⟨rfl, rfl⟩
  · intro row hrow q hq hqds
    have hg := hrowget row hrow
    rw [jsGet_secondary] at hg
    have hfil : b.filter (fun x => decide (x.ds = row.ds)) = [q] := by
      rw [← hqds]
      exact filter_eq_singleton_of_nodup (fun p => p.ds) b q hb hq
    rw [hfil] at hg
    have hsing : ([q] : List NormalizedDataPoint).getLast? = some q := by simp
    rw [hsing] at hg
    have hr := Option.some.inj hg
    rw [← hr]
    exact ⟨rfl, rfl⟩
  · intro row hrow hnota
    have hg := hrowget row hrow
    rw [jsGet_secondary] at hg
    have hg0 : jsGet (a.foldl (primaryStep pl) []) row.ds = none :=
      jsGet_primary_of_not_mem a pl row.ds hnota
    cases hlast : (b.filter fun q => decide (q.ds = row.ds)).getLast? with
    | none =>
      rw [hlast] at hg
      have hg' : jsGet (a.foldl (primaryStep pl) []) row.ds = some row := hg
      rw [hg0] at hg'
      exact absurd hg' (by simp)
    | some q =>
      rw [hlast] at hg
      have hg' : some (secValF sl q (jsGet (a.foldl (primaryStep pl) []) row.ds)) =
          some row := hg
      rw [hg0] at hg'
      have hr := Option.some.inj hg'
      rw [← hr]
      exact ⟨rfl, rfl⟩

/-! ## The matrix sorter -/

theorem keyLt_asymm (k : RegionStatsKey) (x y : RegionStats)
    (h : keyLt k x y = true) : keyLt k y x = false := by
  cases k <;>
    simp only [keyLt, decide_eq_true_eq, decide_eq_false_iff_not] at h ⊢ <;>
    exact lt_asymm h

theorem keyLt_le_trans (k : RegionStatsKey) (x y z : RegionStats)
    (h1 : keyLt k y x = false) (h2 : keyLt k z y = false) : keyLt k z x = false := by
  cases k <;>
    simp only [keyLt, decide_eq_false_iff_not, not_lt] at h1 h2 ⊢ <;>
    exact le_trans h1 h2

theorem sortLe_trans (k : RegionStatsKey) (dir : SortDirection) (x y z : RegionStats)
    (h1 : sortLe k dir x y = true) (h2 : sortLe k dir y z = true) :
    sortLe k dir x z = true := by
  cases dir <;>
    simp only [sortLe, Bool.not_eq_true'] at h1 h2 ⊢
  · exact keyLt_le_trans k x y z h1 h2
  · exact keyLt_le_trans k z y x h2 h1

theorem sortLe_total (k : RegionStatsKey) (dir : SortDirection) (x y : RegionStats) :
    (sortLe k dir x y || sortLe k dir y x) = true := by
  cases dir <;> simp only [sortLe, Bool.or_eq_true, Bool.not_eq_true'] <;>
    rcases hxy : keyLt k x y with _ | _ <;> rcases hyx : keyLt k y x with _ | _ <;>
      simp_all [keyLt_asymm]

/-- Claim C9. For any sort key whose values in the matrix are pairwise
distinct, the ascending sort reversed equals the descending sort. -/
theorem sort_asc_reverse_eq_desc (m : List RegionStats) (k : RegionStatsKey)
    (hdist : m.Pairwise fun x y => keyLt k x y = true ∨ keyLt k y x = true) :
    (sortedMatrix m (some (k, SortDirection.asc))).reverse =
      sortedMatrix m (some (k, SortDirection.desc)) := by
  show (m.mergeSort (sortLe k .asc)).reverse = m.mergeSort (sortLe k .desc)
  have hasc := @List.sorted_mergeSort _ (sortLe k .asc)
    (fun x y z => sortLe_trans k .asc x y z) (fun x y => sortLe_total k .asc x y) m
  have hdesc := @List.sorted_mergeSort _ (sortLe k .desc)
    (fun x y z => sortLe_trans k .desc x y z) (fun x y => sortLe_total k .desc x y) m
  have hda := (List.Perm.pairwise_iff (fun h => h.symm) (List.mergeSort_perm m
    (sortLe k .asc))).2 hdist
  have hdd := (List.Perm.pairwise_iff (fun h => h.symm) (List.mergeSort_perm m
    (sortLe k .desc))).2 hdist
  have hstricta : (m.mergeSort (sortLe k .asc)).Pairwise
      (fun x y => keyLt k x y = true) := by
    refine (hasc.and hda).imp ?_
    rintro x y ⟨h1, h2 | h2⟩
    · exact h2
    · simp only [sortLe, Bool.not_eq_true'] at h1
      rw [h1] at h2
      exact absurd h2 (by simp)
  have hstrictd : (m.mergeSort (sortLe k .desc)).Pairwise
      (fun x y => keyLt k y x = true) := by
    refine (hdesc.and hdd).imp ?_
    rintro x y ⟨h1, h2 | h2⟩
    swap
    · exact h2
    · simp only [sortLe, Bool.not_eq_true'] at h1
      rw [h1] at h2
      exact absurd h2 (by simp)
  have hreva : (m.mergeSort (sortLe k .asc)).reverse.Pairwise
      (fun x y => keyLt k y x = true) := List.pairwise_reverse.2 hstricta
  have hpp : (m.mergeSort (sortLe k .asc)).reverse.Perm
      (m.mergeSort (sortLe k .desc)) :=
    ((List.reverse_perm _).trans (List.mergeSort_perm m _)).trans
      (List.mergeSort_perm m _).symm
  haveI : IsAntisymm RegionStats (fun x y => keyLt k y x = true) :=
    ⟨fun x y h1 h2 => by
      rw [keyLt_asymm k x y h2] at h1
      exact Bool.noConfusion h1⟩
  exact List.eq_of_perm_of_sorted hpp hreva hstrictd

/-- Sorting with `sortedMatrix` returns a permutation of the matrix it was given. -/
theorem sortedMatrix_perm (l : List RegionStats)
    (cfg : Option (RegionStatsKey × SortDirection)) : (sortedMatrix l cfg).Perm l := by
  cases cfg with
  | none => exact List.Perm.refl l
  | some c => exact List.mergeSort_perm l _

/-- Claim C10. The matrix sorter does not mutate its input: the returned
reference is freshly allocated, holds the sorted copy (a permutation of
the input array's rows), and every previously allocated array — in
particular the aggregate's matrix array — still holds exactly its old
value after the call. -/
theorem sortedMatrix_no_mutation (s : ArrayStore) (matrixRef : Nat)
    (sortConfig : Option (RegionStatsKey × SortDirection)) :
    (∀ i, i < s.next →
      ((sortedMatrixInPlace s matrixRef sortConfig).1).arrays i = s.arrays i) ∧
    (sortedMatrixInPlace s matrixRef sortConfig).2 = s.next ∧
    ((sortedMatrixInPlace s matrixRef sortConfig).1).arrays
        ((sortedMatrixInPlace s matrixRef sortConfig).2) =
      sortedMatrix (s.arrays matrixRef) sortConfig ∧
    (((sortedMatrixInPlace s matrixRef sortConfig).1).arrays
        ((sortedMatrixInPlace s matrixRef sortConfig).2)).Perm (s.arrays matrixRef) ∧
    ((sortedMatrixInPlace s matrixRef sortConfig).1).next = s.next + 1 := by
  have heq : ((sortedMatrixInPlace s matrixRef sortConfig).1).arrays
      ((sortedMatrixInPlace s matrixRef sortConfig).2) =
      sortedMatrix (s.arrays matrixRef) sortConfig := by
    simp [sortedMatrixInPlace]
  refine ⟨?_, rfl, heq, ?_, rfl⟩
  · intro i hi
    have hne : i ≠ s.next := Nat.ne_of_lt hi
    simp [sortedMatrixInPlace, hne]
  · rw [heq]
    exact sortedMatrix_perm _ _

/-! ## Concrete sample data for the witnesses -/

def sampleA : MovementRecord :=
  { ds := 1, country := "X", polygon_source := "FIPS", polygon_id := "1",
    polygon_name := "A", all_day_bing_tiles_visited_relative_change := -(1/5),
    all_day_ratio_single_tile_users := 1/2, baseline_name := "b",
    baseline_type := "BASE" }

def sampleB : MovementRecord :=
  { ds := 1, country := "X", polygon_source := "FIPS", polygon_id := "2",
    polygon_name := "B", all_day_bing_tiles_visited_relative_change := 0,
    all_day_ratio_single_tile_users := 3 / 10, baseline_name := "b",
    baseline_type := "BASE" }

def sampleB2 : MovementRecord :=
  { ds := 2, country := "X", polygon_source := "FIPS", polygon_id := "2",
    polygon_name := "B", all_day_bing_tiles_visited_relative_change := 1 / 10,
    all_day_ratio_single_tile_users := 2 / 5, baseline_name := "b",
    baseline_type := "BASE" }

def sampleData : List MovementRecord := [sampleA, sampleB, sampleB2]

def samplePt1 : NormalizedDataPoint :=
  { ds := 1, mobility := 1 / 20, stay := 1 / 2, baseline_type := "BASE" }

def samplePt2 : NormalizedDataPoint :=
  { ds := 2, mobility := -(1 / 10), stay := 3 / 5, baseline_type := "BASE" }

def samplePt3 : NormalizedDataPoint :=
  { ds := 3, mobility := 0, stay := 1 / 4, baseline_type := "BASE" }

def sampleMatrix : List RegionStats :=
  [{ name := "A", avgMobility := 1, avgStay := 2, maxStay := 3, minMobility := 4,
     dataPoints := 5 },
   { name := "B", avgMobility := 2, avgStay := 1, maxStay := 5, minMobility := 0,
     dataPoints := 3 }]

/-- Witness for the C1 theorem at concrete data. -/
theorem aggregate_matrix_one_entry_per_region_witness :
    (("X" : String) ≠ "" ∧
      sampleData.filter (fun d => decide (d.country = "X")) ≠ []) ∧
    (∃ a, calculateCountryAggregates sampleData "X" = some a ∧
      (a.matrix.map RegionStats.name).Nodup ∧
      (∀ n, n ∈ a.matrix.map RegionStats.name ↔
        n ∈ (sampleData.filter fun d => decide (d.country = "X")).map
          MovementRecord.polygon_name) ∧
      a.matrix.length = a.totalRegions ∧
      a.totalRegions = ((sampleData.filter fun d => decide (d.country = "X")).map
        MovementRecord.polygon_name).dedup.length) :=
  ⟨⟨by decide, by decide⟩,
    aggregate_matrix_one_entry_per_region sampleData "X" (by decide) (by decide)⟩

/-- Witness for the C2 theorem at concrete data. -/
theorem aggregate_weighted_sums_equal_grand_total_witness :
    (("X" : String) ≠ "" ∧
      sampleData.filter (fun d => decide (d.country = "X")) ≠ []) ∧
    (∃ a, calculateCountryAggregates sampleData "X" = some a ∧
      (a.matrix.map fun r => r.avgMobility * (r.dataPoints : ℚ)).sum =
        ((sampleData.filter fun d => decide (d.country = "X")).map
          fun r => r.all_day_bing_tiles_visited_relative_change).sum ∧
      (a.trend.map fun t => t.avgMobility *
          (((sampleData.filter fun d => decide (d.country = "X")).countP
            fun r => decide (r.ds = t.ds)) : ℚ)).sum =
        ((sampleData.filter fun d => decide (d.country = "X")).map
          fun r => r.all_day_bing_tiles_visited_relative_change).sum) :=
  ⟨⟨by decide, by decide⟩,
    aggregate_weighted_sums_equal_grand_total sampleData "X" (by decide) (by decide)⟩

/-- Witness for the C5 theorem at concrete data. -/
theorem aggregate_matrix_entry_stats_witness :
    (("X" : String) ≠ "" ∧
      (sampleData.filter fun d => decide (d.country = "X")).filter
        (fun r => decide (r.polygon_name = "B")) ≠ [] ∧
      (∀ r ∈ sampleData, (-1 : ℚ) ≤ r.all_day_ratio_single_tile_users) ∧
      (∀ r ∈ sampleData, r.all_day_bing_tiles_visited_relative_change ≤ 999)) ∧
    (∃ a e, calculateCountryAggregates sampleData "X" = some a ∧ e ∈ a.matrix ∧
      e.name = "B" ∧
      e.dataPoints = ((sampleData.filter fun d => decide (d.country = "X")).filter
        (fun r => decide (r.polygon_name = "B"))).length ∧
      e.avgMobility = (((sampleData.filter fun d => decide (d.country = "X")).filter
          (fun r => decide (r.polygon_name = "B"))).map
            fun r => r.all_day_bing_tiles_visited_relative_change).sum /
        (((sampleData.filter fun d => decide (d.country = "X")).filter
          (fun r => decide (r.polygon_name = "B"))).length : ℚ) ∧
      e.avgStay = (((sampleData.filter fun d => decide (d.country = "X")).filter
          (fun r => decide (r.polygon_name = "B"))).map
            fun r => r.all_day_ratio_single_tile_users).sum /
        (((sampleData.filter fun d => decide (d.country = "X")).filter
          (fun r => decide (r.polygon_name = "B"))).length : ℚ) ∧
      (e.maxStay ∈ ((sampleData.filter fun d => decide (d.country = "X")).filter
          (fun r => decide (r.polygon_name = "B"))).map
            (fun r => r.all_day_ratio_single_tile_users) ∧
        ∀ x ∈ ((sampleData.filter fun d => decide (d.country = "X")).filter
          (fun r => decide (r.polygon_name = "B"))).map
            (fun r => r.all_day_ratio_single_tile_users), x ≤ e.maxStay) ∧
      (e.minMobility ∈ ((sampleData.filter fun d => decide (d.country = "X")).filter
          (fun r => decide (r.polygon_name = "B"))).map
            (fun r => r.all_day_bing_tiles_visited_relative_change) ∧
        ∀ x ∈ ((sampleData.filter fun d => decide (d.country = "X")).filter
          (fun r => decide (r.polygon_name = "B"))).map
            (fun r => r.all_day_bing_tiles_visited_relative_change),
          e.minMobility ≤ x)) :=
  ⟨⟨by decide, by decide, (by
      intro r hr
      simp only [sampleData, List.mem_cons, List.not_mem_nil, or_false] at hr
      rcases hr with rfl | rfl | rfl <;> norm_num [sampleA, sampleB, sampleB2]), (by
      intro r hr
      simp only [sampleData, List.mem_cons, List.not_mem_nil, or_false] at hr
      rcases hr with rfl | rfl | rfl <;> norm_num [sampleA, sampleB, sampleB2])⟩,
    aggregate_matrix_entry_stats sampleData "X" "B" (by decide) (by decide)
      (by
      intro r hr
      simp only [sampleData, List.mem_cons, List.not_mem_nil, or_false] at hr
      rcases hr with rfl | rfl | rfl <;> norm_num [sampleA, sampleB, sampleB2])
      (by
      intro r hr
      simp only [sampleData, List.mem_cons, List.not_mem_nil, or_false] at hr
      rcases hr with rfl | rfl | rfl <;> norm_num [sampleA, sampleB, sampleB2])⟩

/-- Witness for the C6 theorem at concrete data. -/
theorem normalize_specific_region_witness :
    (("X" : String) ≠ "" ∧ ("A" : String) ≠ "" ∧
      ("A" : String) ≠ WHOLE_COUNTRY_OPTION) ∧
    (((getNormalizedSeries sampleData "X" "A").map fun p =>
        (p.ds, p.mobility, p.stay, p.baseline_type)).Perm
      ((sampleData.filter fun d =>
          decide (d.country = "X" ∧ d.polygon_name = "A")).map fun d =>
        (d.ds, d.all_day_bing_tiles_visited_relative_change,
          d.all_day_ratio_single_tile_users, d.baseline_type)) ∧
    ∀ c' r', List.Sorted (· ≤ ·)
      ((getNormalizedSeries sampleData c' r').map NormalizedDataPoint.ds)) :=
  ⟨⟨by decide, by decide, by decide⟩,
    normalize_specific_region sampleData "X" "A" (by decide) (by decide) (by decide)⟩

/-- Witness for the C7 theorem at concrete data. -/
theorem stats_of_nonempty_witness :
    ([samplePt1, samplePt2] : List NormalizedDataPoint) ≠ [] ∧
    (∃ s, calculateStats [samplePt1, samplePt2] = some s ∧
      s.count = ([samplePt1, samplePt2] : List NormalizedDataPoint).length ∧
      (∃ hd, ([samplePt1, samplePt2] : List NormalizedDataPoint).head? = some hd ∧
        s.start = hd.ds) ∧
      (∃ lst, ([samplePt1, samplePt2] : List NormalizedDataPoint).getLast? = some lst ∧
        s.«end» = lst.ds) ∧
      (∃ m, m ∈ ([samplePt1, samplePt2] : List NormalizedDataPoint).map
          (fun p => p.stay) ∧
        (∀ x ∈ ([samplePt1, samplePt2] : List NormalizedDataPoint).map
          (fun p => p.stay), x ≤ m) ∧
        s.maxStayHome = toFixed1 (m * 100)) ∧
      s.avgMobility = toFixed1
        ((([samplePt1, samplePt2] : List NormalizedDataPoint).map
            fun p => p.mobility).sum /
          ((([samplePt1, samplePt2] : List NormalizedDataPoint).length : ℚ)) * 100)) :=
  ⟨by decide, stats_of_nonempty [samplePt1, samplePt2] (by decide)⟩

/-- Witness for the C8 theorem, discharging its inner hypothesis at a
concrete empty selector. -/
theorem core_absence_over_exception_witness :
    ((("" : String) = "" ∨ ("A" : String) = "") ∧
      getNormalizedSeries [] "" "A" = []) ∧
    calculateStats [] = none :=
  ⟨⟨Or.inl rfl, (core_absence_over_exception [] "" "A" "X").2.1 (Or.inl rfl)⟩,
    (core_absence_over_exception [] "" "A" "X").2.2.2.2⟩

/-- Witness for the C4 theorem at concrete series. -/
theorem merge_outer_join_spec_witness :
    ((([samplePt1] : List NormalizedDataPoint).map fun p => p.ds).Nodup ∧
      (([samplePt3, samplePt2] : List NormalizedDataPoint).map fun p => p.ds).Nodup) ∧
    (((comparisonChartData [samplePt1] [samplePt3, samplePt2] true "P" "S").map
        fun row => row.ds).Nodup ∧
    (∀ k, (k ∈ (comparisonChartData [samplePt1] [samplePt3, samplePt2] true "P" "S").map
        fun row => row.ds) ↔
      (k ∈ ([samplePt1] : List NormalizedDataPoint).map fun p => p.ds) ∨
      (k ∈ ([samplePt3, samplePt2] : List NormalizedDataPoint).map fun p => p.ds)) ∧
    (comparisonChartData [samplePt1] [samplePt3, samplePt2] true "P" "S").length =
      ((([samplePt1] : List NormalizedDataPoint).map fun p => p.ds) ++
        (([samplePt3, samplePt2] : List NormalizedDataPoint).map
          fun p => p.ds)).dedup.length ∧
    List.Sorted (· ≤ ·)
      ((comparisonChartData [samplePt1] [samplePt3, samplePt2] true "P" "S").map
        fun row => row.ds) ∧
    (∀ row ∈ comparisonChartData [samplePt1] [samplePt3, samplePt2] true "P" "S",
      ∀ p ∈ ([samplePt1] : List NormalizedDataPoint), p.ds = row.ds →
      row.primary_mobility = some p.mobility ∧ row.primary_stay = some p.stay) ∧
    (∀ row ∈ comparisonChartData [samplePt1] [samplePt3, samplePt2] true "P" "S",
      ∀ q ∈ ([samplePt3, samplePt2] : List NormalizedDataPoint), q.ds = row.ds →
      row.secondary_mobility = some q.mobility ∧ row.secondary_stay = some q.stay) ∧
    (∀ row ∈ comparisonChartData [samplePt1] [samplePt3, samplePt2] true "P" "S",
      (row.ds ∉ ([samplePt1] : List NormalizedDataPoint).map fun p => p.ds) →
      row.primary_mobility = none ∧ row.primary_stay = none)) :=
  ⟨⟨by decide, by decide⟩,
    merge_outer_join_spec [samplePt1] [samplePt3, samplePt2] "P" "S"
      (by decide) (by decide)⟩

/-- Witness for the C9 theorem at a concrete matrix. -/
theorem sort_asc_reverse_eq_desc_witness :
    (sampleMatrix.Pairwise fun x y =>
      keyLt RegionStatsKey.avgMobility x y = true ∨
      keyLt RegionStatsKey.avgMobility y x = true) ∧
    (sortedMatrix sampleMatrix (some (RegionStatsKey.avgMobility,
        SortDirection.asc))).reverse =
      sortedMatrix sampleMatrix (some (RegionStatsKey.avgMobility,
        SortDirection.desc)) :=
  ⟨by decide, sort_asc_reverse_eq_desc sampleMatrix RegionStatsKey.avgMobility (by decide)⟩
